import Mathlib

/-! Shallow embedding of `src/main.cpp`: a byte-aligned binary arithmetic
coder (Ilya Muravyov's variant) together with an adaptive binary model
(`BinShiftModel`) and a bit-tree multi-symbol model (`BitTreeModel`).

Machine integers are modelled as naturals with explicit reduction modulo
`4294967296` (`uint32_t`), `65536` (`uint16_t`) and `18446744073709551616`
(`size_t`) wherever the C++ expression is truncated.  The output byte sink
(`ByteVec &bytes` of the encoder) is modelled functionally: each operation
returns the list of bytes it pushes.  The decoder's byte source is a list
plus the `read_pos` cursor; a read past the end of the vector — which has no
defined result in the source — is modelled as the out-of-data failure, and
the `assert(value < kNumSyms)` of `BitTreeModel::encode` as the out-of-range
failure.  The `while` loops of the coder are fuel-indexed recursions; the
lemmas `renormE_four_done` / `renormE_fuel` (and their decoder counterparts)
show that the fuel used in the definitions always reaches the loop's exit
condition, so these are the loops' exact semantics. -/

namespace MiniArith

/-- `kProbBits` from the source: fixed-point probability resolution. -/
def kProbBits : ℕ := 12

/-- `kProbMax = 1u << kProbBits` (= 4096). -/
def kProbMax : ℕ := 1 <<< kProbBits

/-- Encoder state: the active coding interval, two `uint32_t`. -/
structure BinArithEncoder where
  lo : ℕ
  hi : ℕ
deriving DecidableEq

/-- Initial encoder state, from the constructor: `lo(0), hi(~0u)`. -/
def encInit : BinArithEncoder := ⟨0, 4294967295⟩

/-- Interval midpoint `x = lo + ((uint64_t(hi - lo) * prob) >> kProbBits)`,
with the `uint32_t` subtraction and the final truncating assignment to a
`uint32_t` made explicit (the 64-bit intermediate product never wraps). -/
def mid (lo hi prob : ℕ) : ℕ :=
  (lo + ((((hi + 4294967296 - lo) % 4294967296) * prob) >>> kProbBits)) % 4294967296

/-- Encoder renormalization loop
`while ((lo ^ hi) < (1u << 24)) { push(lo >> 24); lo <<= 8; hi = (hi << 8) | 0xff; }`,
fuel-indexed: `renormE f s` runs at most `f` iterations.  Returns the new
state and the bytes pushed, in push order. -/
def renormE : ℕ → BinArithEncoder → BinArithEncoder × List ℕ
  | 0, s => (s, [])
  | f+1, s =>
    if s.lo ^^^ s.hi < 1 <<< 24 then
      let r := renormE f ⟨(s.lo <<< 8) % 4294967296, ((s.hi <<< 8) % 4294967296) ||| 0xff⟩
      (r.1, (s.lo >>> 24) :: r.2)
    else (s, [])

/-- The subdivision step of `BinArithEncoder::encode`: `bit ? hi = x : lo = x + 1`. -/
def encSubdiv (s : BinArithEncoder) (bit : Bool) (prob : ℕ) : BinArithEncoder :=
  let x := mid s.lo s.hi prob
  if bit then ⟨s.lo, x⟩ else ⟨(x + 1) % 4294967296, s.hi⟩

/-- `BinArithEncoder::encode(bit, prob)`: subdivide, then renormalize. -/
def BinArithEncoder.encode (s : BinArithEncoder) (bit : Bool) (prob : ℕ) :
    BinArithEncoder × List ℕ :=
  renormE 4 (encSubdiv s bit prob)

/-- The flush loop of the destructor `~BinArithEncoder`:
`for 4 times { push(lo >> 24); lo <<= 8; }`. -/
def flushFuel : ℕ → ℕ → List ℕ
  | 0, _ => []
  | f+1, lo => (lo >>> 24) :: flushFuel f ((lo <<< 8) % 4294967296)

/-- Finalization: emit the 4 bytes of the final `lo`, most significant first. -/
def flush (lo : ℕ) : List ℕ := flushFuel 4 lo

/-- Run the encoder over a list of (bit, probability) events. -/
def encodeBits (s : BinArithEncoder) : List (Bool × ℕ) → BinArithEncoder × List ℕ
  | [] => (s, [])
  | e :: rest =>
    let r1 := s.encode e.1 e.2
    let r2 := encodeBits r1.1 rest
    (r2.1, r1.2 ++ r2.2)

/-- A whole encoding session: encode all events, then the destructor flush. -/
def encodeStream (events : List (Bool × ℕ)) : List ℕ :=
  let r := encodeBits encInit events
  r.2 ++ flush r.1.lo

/-- Failure modes of the embedded operations: reading a byte past the end of
the decoder's source, and `BitTreeModel::encode`'s range assert. -/
inductive CoderErr where
  | outOfData
  | outOfRange
deriving DecidableEq

/-- Decoder state: shadow value `code`, interval `lo ≤ hi`, input cursor. -/
structure BinArithDecoder where
  code : ℕ
  lo : ℕ
  hi : ℕ
  read_pos : ℕ
deriving DecidableEq

/-- The constructor loop `for 4 times { code = (code << 8) | bytes[read_pos++]; }`. -/
def decInitFuel : ℕ → List ℕ → ℕ → ℕ → Except CoderErr (ℕ × ℕ)
  | 0, _, code, pos => .ok (code, pos)
  | f+1, bytes, code, pos =>
    match bytes[pos]? with
    | none => .error .outOfData
    | some b => decInitFuel f bytes (((code <<< 8) ||| b) % 4294967296) (pos + 1)

/-- `BinArithDecoder` constructor: `lo(0), hi(~0u), read_pos(0)`, then read
the first 4 source bytes big-endian into `code`. -/
def decInit (bytes : List ℕ) : Except CoderErr BinArithDecoder :=
  (decInitFuel 4 bytes 0 0).map fun cp => ⟨cp.1, 0, 4294967295, cp.2⟩

/-- Decoder renormalization loop: same interval update as the encoder's, and
each iteration shifts one fresh source byte into the low byte of `code`. -/
def renormD : ℕ → List ℕ → BinArithDecoder → Except CoderErr BinArithDecoder
  | 0, _, s => .ok s
  | f+1, bytes, s =>
    if s.lo ^^^ s.hi < 1 <<< 24 then
      match bytes[s.read_pos]? with
      | none => .error .outOfData
      | some b =>
        renormD f bytes
          ⟨((s.code <<< 8) ||| b) % 4294967296, (s.lo <<< 8) % 4294967296,
            ((s.hi <<< 8) % 4294967296) ||| 0xff, s.read_pos + 1⟩
    else .ok s

/-- The subdivision step of `BinArithDecoder::decode`:
`code <= x ? (bit = 1, hi = x) : (bit = 0, lo = x + 1)`. -/
def decSubdiv (s : BinArithDecoder) (prob : ℕ) : Bool × BinArithDecoder :=
  let x := mid s.lo s.hi prob
  if s.code ≤ x then (true, ⟨s.code, s.lo, x, s.read_pos⟩)
  else (false, ⟨s.code, (x + 1) % 4294967296, s.hi, s.read_pos⟩)

/-- `BinArithDecoder::decode(prob)`: subdivide on `code`, then renormalize. -/
def BinArithDecoder.decode (s : BinArithDecoder) (bytes : List ℕ) (prob : ℕ) :
    Except CoderErr (Bool × BinArithDecoder) :=
  let r := decSubdiv s prob
  (renormD 4 bytes r.2).map fun s2 => (r.1, s2)

/-- Run the decoder over a list of probabilities, returning the decoded bits. -/
def decodeBits (bytes : List ℕ) : BinArithDecoder → List ℕ →
    Except CoderErr (List Bool × BinArithDecoder)
  | s, [] => .ok ([], s)
  | s, p :: ps =>
    match s.decode bytes p with
    | .error e => .error e
    | .ok r =>
      match decodeBits bytes r.2 ps with
      | .error e => .error e
      | .ok q => .ok (r.1 :: q.1, q.2)

/-- A whole decoding session over a byte list. -/
def decodeStream (bytes : List ℕ) (probs : List ℕ) : Except CoderErr (List Bool) :=
  match decInit bytes with
  | .error e => .error e
  | .ok s =>
    match decodeBits bytes s probs with
    | .error e => .error e
    | .ok r => .ok r.1

/-- Adaptive binary model: one probability estimate, a `uint16_t` field. -/
structure BinShiftModel where
  prob : ℕ
deriving DecidableEq

/-- `BinShiftModel()`: the neutral prior `kProbMax / 2`. -/
def BinShiftModel.init : BinShiftModel := ⟨kProbMax / 2⟩

/-- `BinShiftModel::adapt(bit)`: on 1, `prob += (kProbMax - prob) >> Inertia`;
on 0, `prob -= prob >> Inertia`; stored back into the `uint16_t` field. -/
def BinShiftModel.adapt (Inertia : ℕ) (m : BinShiftModel) (bit : Bool) : BinShiftModel :=
  if bit then ⟨(m.prob + ((kProbMax - m.prob) >>> Inertia)) % 65536⟩
  else ⟨(m.prob - (m.prob >>> Inertia)) % 65536⟩

/-- `BinShiftModel::encode`: code the bit at the current probability, then adapt. -/
def BinShiftModel.encode (Inertia : ℕ) (m : BinShiftModel) (enc : BinArithEncoder) (bit : Bool) :
    BinShiftModel × BinArithEncoder × List ℕ :=
  let r := enc.encode bit m.prob
  (m.adapt Inertia bit, r.1, r.2)

/-- `BinShiftModel::decode`: decode a bit at the current probability, then
adapt on the decoded bit. -/
def BinShiftModel.decode (Inertia : ℕ) (m : BinShiftModel) (bytes : List ℕ)
    (dec : BinArithDecoder) : Except CoderErr (Bool × BinShiftModel × BinArithDecoder) :=
  match dec.decode bytes m.prob with
  | .error e => .error e
  | .ok r => .ok (r.1, m.adapt Inertia r.1, r.2)

/-- A fresh `BitTreeModel`: `kNumSyms - 1` default-constructed binary models. -/
def initModels (NumBits : ℕ) : List BinShiftModel :=
  List.replicate ((1 <<< NumBits) - 1) BinShiftModel.init

/-- The loop of `BitTreeModel::encode`
(`while (ctx < kNumSyms) { bit = (value & kMSB) != 0; value += value;
model[ctx-1].encode(enc, bit); ctx += ctx + bit; }`), fuel-indexed; `ctx` and
`value` are `size_t`.  `kMSB = kNumSyms / 2`. -/
def treeEncLoop (Inertia NumBits : ℕ) :
    ℕ → ℕ → ℕ → List BinShiftModel → BinArithEncoder →
    List BinShiftModel × BinArithEncoder × List ℕ
  | 0, _, _, models, enc => (models, enc, [])
  | f+1, ctx, value, models, enc =>
    if ctx < 1 <<< NumBits then
      let bit := decide (value &&& ((1 <<< NumBits) / 2) ≠ 0)
      let m := models.getD (ctx - 1) BinShiftModel.init
      let r := m.encode Inertia enc bit
      let rest := treeEncLoop Inertia NumBits f ((ctx + ctx + bit.toNat) % 18446744073709551616)
        ((value + value) % 18446744073709551616) (models.set (ctx - 1) r.1) r.2.1
      (rest.1, rest.2.1, r.2.2 ++ rest.2.2)
    else (models, enc, [])

/-- `BitTreeModel::encode(enc, value)`, with `assert(value < kNumSyms)`
modelled as the out-of-range failure, checked before anything is coded. -/
def BitTreeModel.encode (Inertia NumBits : ℕ) (models : List BinShiftModel)
    (enc : BinArithEncoder) (value : ℕ) :
    Except CoderErr (List BinShiftModel × BinArithEncoder × List ℕ) :=
  if value < 1 <<< NumBits then .ok (treeEncLoop Inertia NumBits NumBits 1 value models enc)
  else .error .outOfRange

/-- The loop of `BitTreeModel::decode`
(`while (ctx < kNumSyms) ctx += ctx + model[ctx-1].decode(dec);`), fuel-indexed. -/
def treeDecLoop (Inertia NumBits : ℕ) (bytes : List ℕ) :
    ℕ → ℕ → List BinShiftModel → BinArithDecoder →
    Except CoderErr (ℕ × List BinShiftModel × BinArithDecoder)
  | 0, ctx, models, dec => .ok (ctx, models, dec)
  | f+1, ctx, models, dec =>
    if ctx < 1 <<< NumBits then
      let m := models.getD (ctx - 1) BinShiftModel.init
      match m.decode Inertia bytes dec with
      | .error e => .error e
      | .ok r =>
        treeDecLoop Inertia NumBits bytes f ((ctx + ctx + r.1.toNat) % 18446744073709551616)
          (models.set (ctx - 1) r.2.1) r.2.2
    else .ok (ctx, models, dec)

/-- `BitTreeModel::decode(dec)`: run the loop, `return ctx - kNumSyms`. -/
def BitTreeModel.decode (Inertia NumBits : ℕ) (models : List BinShiftModel) (bytes : List ℕ)
    (dec : BinArithDecoder) : Except CoderErr (ℕ × List BinShiftModel × BinArithDecoder) :=
  match treeDecLoop Inertia NumBits bytes NumBits 1 models dec with
  | .error e => .error e
  | .ok r => .ok (r.1 - (1 <<< NumBits), r.2)

/-- Encode a list of symbols through one `BitTreeModel` (the multisymbol
example's encode side). -/
def treeEncodeAll (Inertia NumBits : ℕ) :
    List BinShiftModel → BinArithEncoder → List ℕ →
    Except CoderErr (List BinShiftModel × BinArithEncoder × List ℕ)
  | models, enc, [] => .ok (models, enc, [])
  | models, enc, v :: vs =>
    match BitTreeModel.encode Inertia NumBits models enc v with
    | .error e => .error e
    | .ok r =>
      match treeEncodeAll Inertia NumBits r.1 r.2.1 vs with
      | .error e => .error e
      | .ok q => .ok (q.1, q.2.1, r.2.2 ++ q.2.2)

/-- Decode `count` symbols through one `BitTreeModel`. -/
def treeDecodeAll (Inertia NumBits : ℕ) (bytes : List ℕ) :
    ℕ → List BinShiftModel → BinArithDecoder →
    Except CoderErr (List ℕ × List BinShiftModel × BinArithDecoder)
  | 0, models, dec => .ok ([], models, dec)
  | n+1, models, dec =>
    match BitTreeModel.decode Inertia NumBits models bytes dec with
    | .error e => .error e
    | .ok r =>
      match treeDecodeAll Inertia NumBits bytes n r.2.1 r.2.2 with
      | .error e => .error e
      | .ok q => .ok (r.1 :: q.1, q.2)

/-- A whole bit-tree encoding session: fresh models, encode all, flush. -/
def treeEncodeStream (Inertia NumBits : ℕ) (vals : List ℕ) : Except CoderErr (List ℕ) :=
  match treeEncodeAll Inertia NumBits (initModels NumBits) encInit vals with
  | .error e => .error e
  | .ok r => .ok (r.2.2 ++ flush r.2.1.lo)

/-- A whole bit-tree decoding session: fresh models, decode `count` symbols. -/
def treeDecodeStream (Inertia NumBits : ℕ) (bytes : List ℕ) (count : ℕ) :
    Except CoderErr (List ℕ) :=
  match decInit bytes with
  | .error e => .error e
  | .ok s =>
    match treeDecodeAll Inertia NumBits bytes count (initModels NumBits) s with
    | .error e => .error e
    | .ok r => .ok r.1

/-- All bytes of a source are genuine `uint8_t` values. -/
def bytesWF (bytes : List ℕ) : Prop := ∀ b ∈ bytes, b < 256

/-- Big-endian value of the first four bytes of a stream (what the decoder's
4-byte lookahead `code` holds). -/
def val4 (l : List ℕ) : ℕ :=
  l.getD 0 0 * 16777216 + l.getD 1 0 * 65536 + l.getD 2 0 * 256 + l.getD 3 0

/-- Encoder-state invariant between `encode` calls: a nonempty interval of
`uint32_t`s on which the renormalization loop has run to completion. -/
def InvE (s : BinArithEncoder) : Prop :=
  s.lo ≤ s.hi ∧ s.hi < 4294967296 ∧ ¬ s.lo ^^^ s.hi < 1 <<< 24

/-- Encoder states reachable from the initial state by `encode` calls whose
probability is strictly inside `(0, kProbMax)`. -/
inductive EncReach : BinArithEncoder → Prop
  | init : EncReach encInit
  | step (s : BinArithEncoder) (bit : Bool) (prob : ℕ) :
      EncReach s → 0 < prob → prob < kProbMax → EncReach (s.encode bit prob).1

/-- Decoder states reachable from construction by `decode` calls whose
probability is strictly inside `(0, kProbMax)`. -/
inductive DecReachP (bytes : List ℕ) : BinArithDecoder → Prop
  | init (s : BinArithDecoder) : decInit bytes = .ok s → DecReachP bytes s
  | step (s : BinArithDecoder) (prob : ℕ) (b : Bool) (s' : BinArithDecoder) :
      DecReachP bytes s → 0 < prob → prob < kProbMax →
      s.decode bytes prob = .ok (b, s') → DecReachP bytes s'

/-- Decoder states reachable from construction by `decode` calls with
arbitrary probability arguments. -/
inductive DecReach (bytes : List ℕ) : BinArithDecoder → Prop
  | init (s : BinArithDecoder) : decInit bytes = .ok s → DecReach bytes s
  | step (s : BinArithDecoder) (prob : ℕ) (b : Bool) (s' : BinArithDecoder) :
      DecReach bytes s → s.decode bytes prob = .ok (b, s') → DecReach bytes s'

/-- All probabilities of an event list are strictly inside `(0, kProbMax)`. -/
def probsWF (E : List (Bool × ℕ)) : Prop := ∀ e ∈ E, 0 < e.2 ∧ e.2 < kProbMax

/-- All model probabilities are strictly inside `(0, kProbMax)`. -/
def modelsWF (l : List BinShiftModel) : Prop := ∀ m ∈ l, 0 < m.prob ∧ m.prob < kProbMax

/-- Synchronization invariant between an encoder mid-session and a decoder
that has consumed the first `k` stream bytes plus its 4-byte lookahead: the
intervals agree, and `code` is the big-endian value of the next four bytes of
the stream, whose tail from `k` is exactly what the encoder will still emit
for the remaining events `E` (including the final flush). -/
def Synced (bytes : List ℕ) (k : ℕ) (es : BinArithEncoder) (ds : BinArithDecoder)
    (E : List (Bool × ℕ)) : Prop :=
  InvE es ∧ ds.lo = es.lo ∧ ds.hi = es.hi ∧ ds.read_pos = k + 4 ∧
    bytes.drop k = (encodeBits es E).2 ++ flush (encodeBits es E).1.lo ∧
    ds.code = val4 (bytes.drop k) ∧ bytesWF bytes

/-- One-symbol trace of `BitTreeModel::encode`: the (bit, probability) events
the tree hands to the arithmetic coder, and the updated models. -/
def symTrace (Inertia NumBits : ℕ) :
    ℕ → ℕ → ℕ → List BinShiftModel → List (Bool × ℕ) × List BinShiftModel
  | 0, _, _, models => ([], models)
  | f+1, ctx, value, models =>
    if ctx < 1 <<< NumBits then
      let bit := decide (value &&& ((1 <<< NumBits) / 2) ≠ 0)
      let m := models.getD (ctx - 1) BinShiftModel.init
      let r := symTrace Inertia NumBits f ((ctx + ctx + bit.toNat) % 18446744073709551616)
        ((value + value) % 18446744073709551616) (models.set (ctx - 1) (m.adapt Inertia bit))
      ((bit, m.prob) :: r.1, r.2)
    else ([], models)

/-- Whole-session trace of a `BitTreeModel` over a symbol list. -/
def traceAll (Inertia NumBits : ℕ) : List ℕ → List BinShiftModel →
    List (Bool × ℕ) × List BinShiftModel
  | [], models => ([], models)
  | v :: vs, models =>
    let r := symTrace Inertia NumBits NumBits 1 v models
    let q := traceAll Inertia NumBits vs r.2
    (r.1 ++ q.1, q.2)

/-! Arithmetic characterizations of the bit-level operations. -/

theorem kProbMax_eq : kProbMax = 4096 := rfl

theorem shl24 : (1 : ℕ) <<< 24 = 16777216 := rfl

theorem shiftLeft8 (a : ℕ) : a <<< 8 = a * 256 := by
  rw [Nat.shiftLeft_eq]

theorem shiftRight24 (a : ℕ) : a >>> 24 = a / 16777216 := by
  rw [Nat.shiftRight_eq_div_pow]

theorem lor_low8 (a b : ℕ) (hb : b < 256) : (a * 256) ||| b = a * 256 + b := by
  have hb' : b < 2 ^ 8 := by omega
  apply Nat.eq_of_testBit_eq
  intro i
  have hmul : a * 256 = 2 ^ 8 * a := by ring
  rw [Nat.testBit_lor, hmul, Nat.testBit_mul_pow_two_add a hb' i]
  rcases lt_or_le i 8 with h | h
  · rw [if_pos h, Nat.testBit_mul_pow_two]
    have : ¬ (8 : ℕ) ≤ i := by omega
    simp [this]
  · rw [if_neg (by omega), Nat.testBit_mul_pow_two]
    have hbi : b.testBit i = false := by
      apply Nat.testBit_eq_false_of_lt
      exact lt_of_lt_of_le hb' (Nat.pow_le_pow_right (by norm_num) h)
    simp [hbi, h]

theorem lor255 (a : ℕ) : (a * 256) ||| 0xff = a * 256 + 255 :=
  lor_low8 a 255 (by norm_num)

theorem xor_div_pow (a b n : ℕ) : (a ^^^ b) / 2 ^ n = a / 2 ^ n ^^^ b / 2 ^ n := by
  simp only [← Nat.shiftRight_eq_div_pow]
  apply Nat.eq_of_testBit_eq
  intro i
  simp [Nat.testBit_shiftRight, Nat.testBit_xor]

theorem xor_lt_24_iff (a b : ℕ) : a ^^^ b < 16777216 ↔ a / 16777216 = b / 16777216 := by
  have h : (16777216 : ℕ) = 2 ^ 24 := by norm_num
  rw [h, ← Nat.div_eq_zero_iff (show 0 < 2 ^ 24 by positivity), xor_div_pow, Nat.xor_eq_zero]

theorem loStep (lo : ℕ) : (lo <<< 8) % 4294967296 = lo % 16777216 * 256 := by
  rw [shiftLeft8]; omega

theorem hiStep (hi : ℕ) : ((hi <<< 8) % 4294967296) ||| 0xff = hi % 16777216 * 256 + 255 := by
  have h : (hi <<< 8) % 4294967296 = hi % 16777216 * 256 := loStep hi
  rw [h, lor_low8 _ _ (by norm_num)]

theorem mid_eq (lo hi prob : ℕ) (h1 : lo ≤ hi) (h2 : hi < 4294967296) (h3 : prob ≤ 4096) :
    mid lo hi prob = lo + (hi - lo) * prob / 4096 := by
  unfold mid
  rw [Nat.shiftRight_eq_div_pow]
  have hk : (2 : ℕ) ^ kProbBits = 4096 := by norm_num [kProbBits]
  rw [hk]
  have hsub : (hi + 4294967296 - lo) % 4294967296 = hi - lo := by omega
  rw [hsub]
  have hle : (hi - lo) * prob / 4096 ≤ hi - lo := by
    calc (hi - lo) * prob / 4096 ≤ (hi - lo) * 4096 / 4096 :=
          Nat.div_le_div_right (Nat.mul_le_mul_left _ h3)
      _ = hi - lo := Nat.mul_div_cancel _ (by norm_num)
  omega

theorem mid_bounds (lo hi prob : ℕ) (h1 : lo ≤ hi) (h2 : hi < 4294967296) (h3 : prob ≤ 4096) :
    lo ≤ mid lo hi prob ∧ mid lo hi prob ≤ hi := by
  rw [mid_eq lo hi prob h1 h2 h3]
  have hle : (hi - lo) * prob / 4096 ≤ hi - lo := by
    calc (hi - lo) * prob / 4096 ≤ (hi - lo) * 4096 / 4096 :=
          Nat.div_le_div_right (Nat.mul_le_mul_left _ h3)
      _ = hi - lo := Nat.mul_div_cancel _ (by norm_num)
  omega

theorem mid_lt_hi (lo hi prob : ℕ) (h1 : lo < hi) (h2 : hi < 4294967296) (h3 : prob < 4096) :
    mid lo hi prob < hi := by
  rw [mid_eq lo hi prob (le_of_lt h1) h2 (le_of_lt h3)]
  have hlt : (hi - lo) * prob / 4096 < hi - lo := by
    rw [Nat.div_lt_iff_lt_mul (by norm_num : (0:ℕ) < 4096)]
    have h0 : 0 < hi - lo := by omega
    exact (mul_lt_mul_left h0).mpr h3
  omega

/-! The renormalization loops: exit characterization and fuel adequacy. -/

theorem renormE_stop (s : BinArithEncoder) (h : ¬ s.lo ^^^ s.hi < 1 <<< 24) :
    ∀ f, renormE f s = (s, []) := by
  intro f
  cases f with
  | zero => rfl
  | succ f =>
    simp only [renormE]
    rw [if_neg h]

/-- The renorm body: one loop iteration, when the condition holds. -/
theorem renormE_cons (s : BinArithEncoder) (hc : s.lo ^^^ s.hi < 1 <<< 24) (f : ℕ) :
    renormE (f+1) s =
      ((renormE f ⟨(s.lo <<< 8) % 4294967296, ((s.hi <<< 8) % 4294967296) ||| 0xff⟩).1,
        (s.lo >>> 24) ::
          (renormE f ⟨(s.lo <<< 8) % 4294967296, ((s.hi <<< 8) % 4294967296) ||| 0xff⟩).2) := by
  simp only [renormE, if_pos hc]

theorem enc_mk_lo (a b : ℕ) : (BinArithEncoder.mk a b).lo = a := rfl

theorem enc_mk_hi (a b : ℕ) : (BinArithEncoder.mk a b).hi = b := rfl

theorem renormE_done_aux :
    ∀ (f : ℕ) (s : BinArithEncoder),
      s.lo % 256 ^ (4 - f) = 0 → s.hi % 256 ^ (4 - f) = 256 ^ (4 - f) - 1 →
      s.lo < 4294967296 → s.hi < 4294967296 →
      ¬ (renormE f s).1.lo ^^^ (renormE f s).1.hi < 1 <<< 24 := by
  intro f
  induction f with
  | zero =>
    intro s h1 h2 h3 h4
    have hlo : s.lo = 0 := by norm_num at h1; omega
    have hhi : s.hi = 4294967295 := by norm_num at h2; omega
    show ¬ s.lo ^^^ s.hi < 1 <<< 24
    rw [hlo, hhi]; decide
  | succ f ih =>
    intro s h1 h2 h3 h4
    by_cases hc : s.lo ^^^ s.hi < 1 <<< 24
    · rw [renormE_cons s hc]
      simp only [loStep, lor255]
      rcases f with _ | _ | _ | _ | f
      · exact ih _ (by simp only [enc_mk_lo]; norm_num at h1 ⊢; try omega)
          (by simp only [enc_mk_hi]; norm_num at h2 ⊢; try omega)
          (by simp only [enc_mk_lo]; omega) (by simp only [enc_mk_hi]; omega)
      · exact ih _ (by simp only [enc_mk_lo]; norm_num at h1 ⊢; try omega)
          (by simp only [enc_mk_hi]; norm_num at h2 ⊢; try omega)
          (by simp only [enc_mk_lo]; omega) (by simp only [enc_mk_hi]; omega)
      · exact ih _ (by simp only [enc_mk_lo]; norm_num at h1 ⊢; try omega)
          (by simp only [enc_mk_hi]; norm_num at h2 ⊢; try omega)
          (by simp only [enc_mk_lo]; omega) (by simp only [enc_mk_hi]; omega)
      · exact ih _ (by simp only [enc_mk_lo]; norm_num; try omega)
          (by simp only [enc_mk_hi]; norm_num; try omega)
          (by simp only [enc_mk_lo]; omega) (by simp only [enc_mk_hi]; omega)
      · refine ih _ ?_ ?_ (by simp only [enc_mk_lo]; omega) (by simp only [enc_mk_hi]; omega)
        · simp only [enc_mk_lo]
          have h0 : 4 - (f + 1 + 1 + 1 + 1) = 0 := by omega
          rw [h0, pow_zero, Nat.mod_one]
        · simp only [enc_mk_hi]
          have h0 : 4 - (f + 1 + 1 + 1 + 1) = 0 := by omega
          rw [h0, pow_zero, Nat.mod_one]
          rfl
    · rw [renormE_stop s hc]
      exact hc

theorem renormE_four_done (s : BinArithEncoder) (h3 : s.lo < 4294967296)
    (h4 : s.hi < 4294967296) :
    ¬ (renormE 4 s).1.lo ^^^ (renormE 4 s).1.hi < 1 <<< 24 :=
  renormE_done_aux 4 s (Nat.mod_one _) (Nat.mod_one _) h3 h4

theorem renormE_fuel_of_done (k : ℕ) :
    ∀ (f : ℕ) (s : BinArithEncoder), ¬ (renormE k s).1.lo ^^^ (renormE k s).1.hi < 1 <<< 24 →
      k ≤ f → renormE f s = renormE k s := by
  induction k with
  | zero =>
    intro f s hdone _
    simp only [renormE] at hdone
    exact renormE_stop s hdone f
  | succ k ih =>
    intro f s hdone hle
    by_cases hc : s.lo ^^^ s.hi < 1 <<< 24
    · cases f with
      | zero => omega
      | succ f =>
        rw [renormE_cons s hc, renormE_cons s hc]
        rw [renormE_cons s hc] at hdone
        rw [ih f _ hdone (by omega)]
    · rw [renormE_stop s hc, renormE_stop s hc]

theorem renormE_fuel (f : ℕ) (s : BinArithEncoder) (h : 4 ≤ f)
    (h3 : s.lo < 4294967296) (h4 : s.hi < 4294967296) :
    renormE f s = renormE 4 s :=
  renormE_fuel_of_done 4 f s (renormE_four_done s h3 h4) h

/-! Interval invariants: preservation by subdivision and renormalization. -/

theorem dec_mk_code (c l h p : ℕ) : (BinArithDecoder.mk c l h p).code = c := rfl

theorem dec_mk_lo (c l h p : ℕ) : (BinArithDecoder.mk c l h p).lo = l := rfl

theorem dec_mk_hi (c l h p : ℕ) : (BinArithDecoder.mk c l h p).hi = h := rfl

theorem dec_mk_pos (c l h p : ℕ) : (BinArithDecoder.mk c l h p).read_pos = p := rfl

theorem mid_lt_u32 (lo hi prob : ℕ) : mid lo hi prob < 4294967296 :=
  Nat.mod_lt _ (by norm_num)

theorem renormE_pres : ∀ (f : ℕ) (s : BinArithEncoder), s.lo ≤ s.hi → s.hi < 4294967296 →
    (renormE f s).1.lo ≤ (renormE f s).1.hi ∧ (renormE f s).1.hi < 4294967296 := by
  intro f
  induction f with
  | zero => intro s h1 h2; exact ⟨h1, h2⟩
  | succ f ih =>
    intro s h1 h2
    by_cases hc : s.lo ^^^ s.hi < 1 <<< 24
    · rw [renormE_cons s hc]
      simp only [loStep, lor255]
      have hq : s.lo / 16777216 = s.hi / 16777216 := by
        rw [shl24] at hc; exact (xor_lt_24_iff _ _).mp hc
      exact ih ⟨s.lo % 16777216 * 256, s.hi % 16777216 * 256 + 255⟩
        (by simp only [enc_mk_lo, enc_mk_hi]; omega) (by simp only [enc_mk_hi]; omega)
    · rw [renormE_stop s hc]; exact ⟨h1, h2⟩

theorem renormE_out_length : ∀ (f : ℕ) (s : BinArithEncoder),
    (renormE f s).2.length ≤ f := by
  intro f
  induction f with
  | zero => intro s; simp [renormE]
  | succ f ih =>
    intro s
    by_cases hc : s.lo ^^^ s.hi < 1 <<< 24
    · rw [renormE_cons s hc]
      simpa using Nat.succ_le_succ (ih _)
    · rw [renormE_stop s hc]; simp

theorem renormE_bytes_wf : ∀ (f : ℕ) (s : BinArithEncoder), s.lo < 4294967296 →
    ∀ b ∈ (renormE f s).2, b < 256 := by
  intro f
  induction f with
  | zero => intro s _ b hb; simp [renormE] at hb
  | succ f ih =>
    intro s hlo b hb
    by_cases hc : s.lo ^^^ s.hi < 1 <<< 24
    · rw [renormE_cons s hc] at hb
      rcases List.mem_cons.mp hb with h | h
      · subst h; rw [shiftRight24]; omega
      · exact ih ⟨(s.lo <<< 8) % 4294967296, ((s.hi <<< 8) % 4294967296) ||| 0xff⟩
          (by simp only [loStep, enc_mk_lo]; omega) b (by simpa using h)
    · rw [renormE_stop s hc] at hb; simp at hb

theorem encSubdiv_bounds (s : BinArithEncoder) (bit : Bool) (p : ℕ) (h1 : s.lo < s.hi)
    (h2 : s.hi < 4294967296) (h3 : p < 4096) :
    s.lo ≤ (encSubdiv s bit p).lo ∧ (encSubdiv s bit p).lo ≤ (encSubdiv s bit p).hi ∧
      (encSubdiv s bit p).hi ≤ s.hi ∧ (encSubdiv s bit p).hi < 4294967296 := by
  have hm := mid_bounds s.lo s.hi p (le_of_lt h1) h2 (le_of_lt h3)
  have hm2 := mid_lt_hi s.lo s.hi p h1 h2 h3
  cases bit
  · rw [show encSubdiv s false p = ⟨(mid s.lo s.hi p + 1) % 4294967296, s.hi⟩ from rfl]
    simp only [enc_mk_lo, enc_mk_hi]
    omega
  · rw [show encSubdiv s true p = ⟨s.lo, mid s.lo s.hi p⟩ from rfl]
    simp only [enc_mk_lo, enc_mk_hi]
    omega

theorem InvE_strict (s : BinArithEncoder) (h : InvE s) : s.lo < s.hi := by
  rcases h with ⟨h1, _, h3⟩
  rcases Nat.lt_or_ge s.lo s.hi with h | h
  · exact h
  · have heq : s.lo = s.hi := le_antisymm h1 h
    exfalso
    apply h3
    rw [heq, Nat.xor_self]
    decide

theorem encInit_InvE : InvE encInit :=
  ⟨by norm_num [encInit], by norm_num [encInit], by decide⟩

theorem InvE_encode (s : BinArithEncoder) (bit : Bool) (p : ℕ) (h : InvE s) (hp : p < 4096) :
    InvE (s.encode bit p).1 := by
  have hstrict := InvE_strict s h
  have hsub := encSubdiv_bounds s bit p hstrict h.2.1 hp
  have hpres := renormE_pres 4 (encSubdiv s bit p) (by omega) (by omega)
  have hdone := renormE_four_done (encSubdiv s bit p) (by omega) (by omega)
  exact ⟨hpres.1, hpres.2, hdone⟩

/-! Decoder renormalization: characterizations and transfer to the encoder's. -/

theorem renormD_stop (bytes : List ℕ) (s : BinArithDecoder)
    (h : ¬ s.lo ^^^ s.hi < 1 <<< 24) : ∀ f, renormD f bytes s = .ok s := by
  intro f
  cases f with
  | zero => rfl
  | succ f =>
    simp only [renormD]
    rw [if_neg h]

theorem renormD_cons (bytes : List ℕ) (s : BinArithDecoder) (b : ℕ)
    (hc : s.lo ^^^ s.hi < 1 <<< 24) (hread : bytes[s.read_pos]? = some b) (f : ℕ) :
    renormD (f+1) bytes s = renormD f bytes
      ⟨((s.code <<< 8) ||| b) % 4294967296, (s.lo <<< 8) % 4294967296,
        ((s.hi <<< 8) % 4294967296) ||| 0xff, s.read_pos + 1⟩ := by
  simp only [renormD, if_pos hc, hread]

theorem renormD_none (bytes : List ℕ) (s : BinArithDecoder)
    (hc : s.lo ^^^ s.hi < 1 <<< 24) (hread : bytes[s.read_pos]? = none) (f : ℕ) :
    renormD (f+1) bytes s = .error .outOfData := by
  simp only [renormD, if_pos hc, hread]

theorem renormD_err : ∀ (f : ℕ) (bytes : List ℕ) (s : BinArithDecoder) (e : CoderErr),
    renormD f bytes s = .error e → e = .outOfData := by
  intro f
  induction f with
  | zero => intro bytes s e h; simp [renormD] at h
  | succ f ih =>
    intro bytes s e h
    by_cases hc : s.lo ^^^ s.hi < 1 <<< 24
    · cases hread : bytes[s.read_pos]? with
      | none =>
        rw [renormD_none bytes s hc hread] at h
        injection h with h2
        exact h2.symm
      | some b =>
        rw [renormD_cons bytes s b hc hread] at h
        exact ih _ _ _ h
    · rw [renormD_stop bytes s hc] at h
      simp at h

/-- When the decoder renormalization succeeds, its interval evolves exactly as
the encoder's renormalization from the same interval. -/
theorem renormD_loHi : ∀ (f : ℕ) (bytes : List ℕ) (s : BinArithDecoder) (s' : BinArithDecoder),
    renormD f bytes s = .ok s' → (renormE f ⟨s.lo, s.hi⟩).1 = ⟨s'.lo, s'.hi⟩ := by
  intro f
  induction f with
  | zero =>
    intro bytes s s' h
    simp only [renormD] at h
    cases h
    rfl
  | succ f ih =>
    intro bytes s s' h
    by_cases hc : s.lo ^^^ s.hi < 1 <<< 24
    · cases hread : bytes[s.read_pos]? with
      | none => rw [renormD_none bytes s hc hread] at h; simp at h
      | some b =>
        rw [renormD_cons bytes s b hc hread] at h
        have := ih bytes _ s' h
        rw [renormE_cons ⟨s.lo, s.hi⟩ hc]
        exact this
    · rw [renormD_stop bytes s hc] at h
      cases h
      rw [renormE_stop ⟨s.lo, s.hi⟩ hc]

theorem renormD_pos : ∀ (f : ℕ) (bytes : List ℕ) (s s' : BinArithDecoder),
    renormD f bytes s = .ok s' → s.read_pos ≤ s'.read_pos ∧ s'.read_pos ≤ s.read_pos + f := by
  intro f
  induction f with
  | zero =>
    intro bytes s s' h
    simp only [renormD] at h
    cases h
    omega
  | succ f ih =>
    intro bytes s s' h
    by_cases hc : s.lo ^^^ s.hi < 1 <<< 24
    · cases hread : bytes[s.read_pos]? with
      | none => rw [renormD_none bytes s hc hread] at h; simp at h
      | some b =>
        rw [renormD_cons bytes s b hc hread] at h
        have := ih bytes _ s' h
        simp only [dec_mk_pos] at this
        omega
    · rw [renormD_stop bytes s hc] at h
      cases h
      omega

theorem mem_of_getElem_opt {α : Type} {l : List α} {i : ℕ} {a : α} (h : l[i]? = some a) :
    a ∈ l := by
  have h2 : i < l.length := by
    by_contra hh
    rw [List.getElem?_eq_none (by omega)] at h
    simp at h
  rw [List.getElem?_eq_getElem h2] at h
  cases h
  exact List.getElem_mem h2

/-- The shadow-state invariant `lo ≤ code ≤ hi` (with `code` a `uint32_t`) is
preserved by any successful decoder renormalization over genuine bytes. -/
theorem renormD_code_pres : ∀ (f : ℕ) (bytes : List ℕ) (s s' : BinArithDecoder),
    renormD f bytes s = .ok s' → bytesWF bytes →
    s.code < 4294967296 → s.hi < 4294967296 → s.lo ≤ s.code → s.code ≤ s.hi →
    s'.code < 4294967296 ∧ s'.lo ≤ s'.code ∧ s'.code ≤ s'.hi := by
  intro f
  induction f with
  | zero =>
    intro bytes s s' h hwf h1 h2 h3 h4
    simp only [renormD] at h
    cases h
    exact ⟨h1, h3, h4⟩
  | succ f ih =>
    intro bytes s s' h hwf h1 h2 h3 h4
    by_cases hc : s.lo ^^^ s.hi < 1 <<< 24
    · cases hread : bytes[s.read_pos]? with
      | none => rw [renormD_none bytes s hc hread] at h; simp at h
      | some b =>
        have hb : b < 256 := hwf b (mem_of_getElem_opt hread)
        rw [renormD_cons bytes s b hc hread] at h
        have hq : s.lo / 16777216 = s.hi / 16777216 := by
          rw [shl24] at hc; exact (xor_lt_24_iff _ _).mp hc
        have hcode : ((s.code <<< 8) ||| b) % 4294967296 = s.code % 16777216 * 256 + b := by
          rw [shiftLeft8, lor_low8 _ _ hb]; omega
        refine ih bytes _ s' h hwf ?_ ?_ ?_ ?_ <;>
          · simp only [dec_mk_code, dec_mk_lo, dec_mk_hi, hcode, loStep, lor255]
            omega
    · rw [renormD_stop bytes s hc] at h
      cases h
      exact ⟨h1, h3, h4⟩

/-! The 4-byte lookahead value: flush, construction, and nesting lemmas. -/

theorem getD_cons1 (a : ℕ) (l : List ℕ) : (a :: l).getD 1 0 = l.getD 0 0 := rfl

theorem getD_cons2 (a : ℕ) (l : List ℕ) : (a :: l).getD 2 0 = l.getD 1 0 := rfl

theorem getD_cons3 (a : ℕ) (l : List ℕ) : (a :: l).getD 3 0 = l.getD 2 0 := rfl

theorem bytesWF_getD (l : List ℕ) (h : bytesWF l) (i : ℕ) : l.getD i 0 < 256 := by
  rw [List.getD_eq_getElem?_getD]
  cases hlt : l[i]? with
  | none => norm_num
  | some b => simpa using h b (mem_of_getElem_opt hlt)

theorem val4_lt (l : List ℕ) (h : bytesWF l) : val4 l < 4294967296 := by
  have h0 := bytesWF_getD l h 0
  have h1 := bytesWF_getD l h 1
  have h2 := bytesWF_getD l h 2
  have h3 := bytesWF_getD l h 3
  unfold val4
  omega

theorem val4_cons (t : ℕ) (G : List ℕ) (hg : G.getD 3 0 < 256) :
    val4 (t :: G) = t * 16777216 + val4 G / 256 := by
  unfold val4
  simp only [List.getD_cons_zero, getD_cons1, getD_cons2, getD_cons3]
  omega

theorem flush_eq (lo : ℕ) (h : lo < 4294967296) :
    flush lo = [lo / 16777216, lo / 65536 % 256, lo / 256 % 256, lo % 256] := by
  show flushFuel 4 lo = _
  simp only [flushFuel, shiftRight24, loStep, List.cons.injEq, and_true, true_and]
  omega

theorem flush_length (lo : ℕ) : (flush lo).length = 4 := by
  simp [flush, flushFuel]

theorem val4_flush (lo : ℕ) (h : lo < 4294967296) : val4 (flush lo) = lo := by
  rw [flush_eq lo h]
  unfold val4
  simp only [List.getD_cons_zero, getD_cons1, getD_cons2, getD_cons3]
  omega

theorem flush_bytes_wf (lo : ℕ) (h : lo < 4294967296) : bytesWF (flush lo) := by
  rw [flush_eq lo h]
  intro b hb
  simp only [List.mem_cons, List.not_mem_nil, or_false] at hb
  rcases hb with h1 | h1 | h1 | h1 <;> subst h1 <;> omega

theorem decInitFuel_cons (f : ℕ) (bytes : List ℕ) (code pos b : ℕ)
    (hread : bytes[pos]? = some b) :
    decInitFuel (f+1) bytes code pos =
      decInitFuel f bytes (((code <<< 8) ||| b) % 4294967296) (pos + 1) := by
  simp only [decInitFuel, hread]

theorem decInit_eq (bytes : List ℕ) (h4 : 4 ≤ bytes.length) (hwf : bytesWF bytes) :
    decInit bytes = .ok ⟨val4 bytes, 0, 4294967295, 4⟩ := by
  match bytes, h4 with
  | b0 :: b1 :: b2 :: b3 :: rest, _ =>
    have h0 : b0 < 256 := hwf b0 (by simp)
    have h1 : b1 < 256 := hwf b1 (by simp)
    have h2 : b2 < 256 := hwf b2 (by simp)
    have h3 : b3 < 256 := hwf b3 (by simp)
    have c1 : (((0 : ℕ) <<< 8) ||| b0) % 4294967296 = b0 := by
      rw [Nat.zero_shiftLeft, Nat.zero_or]; omega
    have c2 : ((b0 <<< 8) ||| b1) % 4294967296 = b0 * 256 + b1 := by
      rw [shiftLeft8, lor_low8 _ _ h1]; omega
    have c3 : (((b0 * 256 + b1) <<< 8) ||| b2) % 4294967296 =
        (b0 * 256 + b1) * 256 + b2 := by
      rw [shiftLeft8, lor_low8 _ _ h2]; omega
    have c4 : ((((b0 * 256 + b1) * 256 + b2) <<< 8) ||| b3) % 4294967296 =
        ((b0 * 256 + b1) * 256 + b2) * 256 + b3 := by
      rw [shiftLeft8, lor_low8 _ _ h3]; omega
    have hcode : ((b0 * 256 + b1) * 256 + b2) * 256 + b3 =
        val4 (b0 :: b1 :: b2 :: b3 :: rest) := by
      unfold val4
      simp only [List.getD_cons_zero, getD_cons1, getD_cons2, getD_cons3]
      omega
    show (decInitFuel 4 _ 0 0).map _ = _
    rw [decInitFuel_cons 3 _ 0 0 b0 (by simp), c1, decInitFuel_cons 2 _ b0 (0+1) b1 (by simp),
      c2, decInitFuel_cons 1 _ _ (0+1+1) b2 (by simp), c3,
      decInitFuel_cons 0 _ _ (0+1+1+1) b3 (by simp), c4, hcode]
    rfl

/-- Interval nesting through renormalization: if the 4-byte lookahead of the
future stream lies in the renormalized interval, then prepending the bytes
the renormalization emitted gives a lookahead lying in the pre-renorm
interval. -/
theorem renorm_nest : ∀ (f : ℕ) (s s' : BinArithEncoder) (out : List ℕ),
    renormE f s = (s', out) → s.lo ≤ s.hi → s.hi < 4294967296 →
    ∀ F : List ℕ, bytesWF F → (∀ b ∈ out, b < 256) →
      s'.lo ≤ val4 F → val4 F ≤ s'.hi →
      s.lo ≤ val4 (out ++ F) ∧ val4 (out ++ F) ≤ s.hi := by
  intro f
  induction f with
  | zero =>
    intro s s' out heq hle hw F hF hout hlo hhi
    simp only [renormE] at heq
    cases heq
    simpa using ⟨hlo, hhi⟩
  | succ f ih =>
    intro s s' out heq hle hw F hF hout hlo hhi
    by_cases hc : s.lo ^^^ s.hi < 1 <<< 24
    · rw [renormE_cons s hc] at heq
      set s1 : BinArithEncoder :=
        ⟨(s.lo <<< 8) % 4294967296, ((s.hi <<< 8) % 4294967296) ||| 0xff⟩ with hs1def
      have hs' : s' = (renormE f s1).1 := (congrArg Prod.fst heq).symm
      have hout2 : out = (s.lo >>> 24) :: (renormE f s1).2 := (congrArg Prod.snd heq).symm
      subst hs' hout2
      have hq : s.lo / 16777216 = s.hi / 16777216 := by
        rw [shl24] at hc; exact (xor_lt_24_iff _ _).mp hc
      have hs1lo : s1.lo = s.lo % 16777216 * 256 := by rw [hs1def, enc_mk_lo, loStep]
      have hs1hi : s1.hi = s.hi % 16777216 * 256 + 255 := by rw [hs1def, enc_mk_hi, hiStep]
      have hle1 : s1.lo ≤ s1.hi := by rw [hs1lo, hs1hi]; omega
      have hw1 : s1.hi < 4294967296 := by rw [hs1hi]; omega
      have hrec := ih s1 _ _ rfl hle1 hw1 F hF
        (fun b hb => hout b (List.mem_cons_of_mem _ hb)) hlo hhi
      rw [hs1lo, hs1hi] at hrec
      rw [List.cons_append, val4_cons _ _ (bytesWF_getD _ (fun b hb => by
        rcases List.mem_append.mp hb with h | h
        · exact hout b (List.mem_cons_of_mem _ h)
        · exact hF b h) 3), shiftRight24]
      omega
    · rw [renormE_stop s hc] at heq
      cases heq
      simpa using ⟨hlo, hhi⟩

theorem InvE_encodeBits : ∀ (E : List (Bool × ℕ)) (s : BinArithEncoder),
    InvE s → probsWF E → InvE (encodeBits s E).1 := by
  intro E
  induction E with
  | nil => intro s h _; exact h
  | cons e rest ih =>
    intro s h hp
    simp only [encodeBits]
    exact ih _ (InvE_encode s e.1 e.2 h (by
        have := hp e (List.mem_cons_self e rest)
        rw [kProbMax_eq] at this
        omega))
      (fun x hx => hp x (List.mem_cons_of_mem _ hx))

theorem encodeBits_bytes_wf : ∀ (E : List (Bool × ℕ)) (s : BinArithEncoder),
    InvE s → probsWF E → bytesWF (encodeBits s E).2 := by
  intro E
  induction E with
  | nil => intro s _ _ b hb; simp [encodeBits] at hb
  | cons e rest ih =>
    intro s h hp b hb
    simp only [encodeBits] at hb
    rcases List.mem_append.mp hb with hmem | hmem
    · have hwf := renormE_bytes_wf 4 (encSubdiv s e.1 e.2) (by
        have hb2 := encSubdiv_bounds s e.1 e.2 (InvE_strict s h) h.2.1 (by
          have := hp e (List.mem_cons_self e rest)
          rw [kProbMax_eq] at this
          omega)
        omega)
      exact hwf b hmem
    · have hp' : probsWF rest := fun x hx => hp x (List.mem_cons_of_mem _ hx)
      have hInv : InvE (s.encode e.1 e.2).1 := InvE_encode s e.1 e.2 h (by
        have := hp e (List.mem_cons_self e rest)
        rw [kProbMax_eq] at this
        omega)
      exact ih _ hInv hp' b hmem

/-- Interval nesting for a whole remaining session: the 4-byte lookahead of
everything the encoder will still emit (renormalization bytes plus final
flush) lies inside the current interval. -/
theorem encodeBits_nest : ∀ (E : List (Bool × ℕ)) (s : BinArithEncoder), InvE s → probsWF E →
    s.lo ≤ val4 ((encodeBits s E).2 ++ flush (encodeBits s E).1.lo) ∧
      val4 ((encodeBits s E).2 ++ flush (encodeBits s E).1.lo) ≤ s.hi := by
  intro E
  induction E with
  | nil =>
    intro s h _
    simp only [encodeBits, List.nil_append]
    rw [val4_flush s.lo (by have := h.1; have := h.2.1; omega)]
    exact ⟨le_refl _, h.1⟩
  | cons e rest ih =>
    intro s h hp
    have hp1 : 0 < e.2 ∧ e.2 < kProbMax := hp e (List.mem_cons_self e rest)
    have hpk : e.2 < 4096 := by rw [kProbMax_eq] at hp1; exact hp1.2
    have hp' : probsWF rest := fun x hx => hp x (List.mem_cons_of_mem _ hx)
    have hInv1 : InvE (s.encode e.1 e.2).1 := InvE_encode s e.1 e.2 h hpk
    have hrec := ih (s.encode e.1 e.2).1 hInv1 hp'
    have hsub := encSubdiv_bounds s e.1 e.2 (InvE_strict s h) h.2.1 hpk
    have hFwf : bytesWF ((encodeBits (s.encode e.1 e.2).1 rest).2 ++
        flush (encodeBits (s.encode e.1 e.2).1 rest).1.lo) := by
      intro b hb
      rcases List.mem_append.mp hb with hm | hm
      · exact encodeBits_bytes_wf rest _ hInv1 hp' b hm
      · have hInvf := InvE_encodeBits rest _ hInv1 hp'
        exact flush_bytes_wf _ (by have := hInvf.1; have := hInvf.2.1; omega) b hm
    have hnest := renorm_nest 4 (encSubdiv s e.1 e.2) (s.encode e.1 e.2).1
      (s.encode e.1 e.2).2 rfl (by omega) (by omega) _ hFwf
      (renormE_bytes_wf 4 (encSubdiv s e.1 e.2) (by omega)) hrec.1 hrec.2
    simp only [encodeBits]
    rw [List.append_assoc]
    exact ⟨le_trans hsub.1 hnest.1, le_trans hnest.2 hsub.2.2.1⟩

/-! Encoder/decoder synchronization: the decoder's renormalization consumes
exactly the bytes the encoder's renormalization emitted, keeping `code` the
big-endian value of the next four stream bytes. -/

theorem val4_shift (t : ℕ) (G : List ℕ) (hG : ∀ i, G.getD i 0 < 256) :
    ((val4 (t :: G) <<< 8) ||| G.getD 3 0) % 4294967296 = val4 G := by
  have h0 := hG 0
  have h1 := hG 1
  have h2 := hG 2
  have h3 := hG 3
  rw [shiftLeft8]
  unfold val4
  simp only [List.getD_cons_zero, getD_cons1, getD_cons2, getD_cons3]
  rw [show (t * 16777216 + G.getD 0 0 * 65536 + G.getD 1 0 * 256 + G.getD 2 0) * 256 =
    (t * 16777216 + G.getD 0 0 * 65536 + G.getD 1 0 * 256 + G.getD 2 0) * 256 from rfl,
    lor_low8 _ _ h3]
  omega

theorem renorm_sync : ∀ (f : ℕ) (s s' : BinArithEncoder) (out : List ℕ),
    renormE f s = (s', out) →
    ∀ (bytes F : List ℕ) (k : ℕ),
      bytes.drop k = out ++ F → 4 ≤ F.length → bytesWF bytes →
      renormD f bytes ⟨val4 (out ++ F), s.lo, s.hi, k + 4⟩ =
        .ok ⟨val4 F, s'.lo, s'.hi, k + out.length + 4⟩ := by
  intro f
  induction f with
  | zero =>
    intro s s' out heq bytes F k hdropk hFlen hwf
    simp only [renormE] at heq
    cases heq
    simp [renormD]
  | succ f ih =>
    intro s s' out heq bytes F k hdropk hFlen hwf
    by_cases hc : s.lo ^^^ s.hi < 1 <<< 24
    · rw [renormE_cons s hc] at heq
      have hs' : s' = (renormE f ⟨(s.lo <<< 8) % 4294967296,
          ((s.hi <<< 8) % 4294967296) ||| 0xff⟩).1 := (congrArg Prod.fst heq).symm
      have hout2 : out = (s.lo >>> 24) :: (renormE f ⟨(s.lo <<< 8) % 4294967296,
          ((s.hi <<< 8) % 4294967296) ||| 0xff⟩).2 := (congrArg Prod.snd heq).symm
      subst hs' hout2
      have hdrop1 : bytes.drop (k+1) =
          (renormE f ⟨(s.lo <<< 8) % 4294967296,
            ((s.hi <<< 8) % 4294967296) ||| 0xff⟩).2 ++ F := by
        have h2 := List.drop_drop 1 k bytes
        rw [hdropk] at h2
        have h3 : List.drop 1 ((s.lo >>> 24) :: ((renormE f ⟨(s.lo <<< 8) % 4294967296,
            ((s.hi <<< 8) % 4294967296) ||| 0xff⟩).2 ++ F)) =
            (renormE f ⟨(s.lo <<< 8) % 4294967296,
              ((s.hi <<< 8) % 4294967296) ||| 0xff⟩).2 ++ F := rfl
        rw [List.cons_append] at h2
        rw [← h3]
        rw [← h2]
      have htailwf : bytesWF ((renormE f ⟨(s.lo <<< 8) % 4294967296,
          ((s.hi <<< 8) % 4294967296) ||| 0xff⟩).2 ++ F) := by
        intro b hb
        apply hwf
        have : b ∈ bytes.drop (k+1) := by rw [hdrop1]; exact hb
        exact List.mem_of_mem_drop this
      have hgd : ∀ i, ((renormE f ⟨(s.lo <<< 8) % 4294967296,
          ((s.hi <<< 8) % 4294967296) ||| 0xff⟩).2 ++ F).getD i 0 < 256 :=
        fun i => bytesWF_getD _ htailwf i
      have hread : bytes[k + 4]? = some (((renormE f ⟨(s.lo <<< 8) % 4294967296,
          ((s.hi <<< 8) % 4294967296) ||| 0xff⟩).2 ++ F).getD 3 0) := by
        have hlen3 : 3 < ((renormE f ⟨(s.lo <<< 8) % 4294967296,
            ((s.hi <<< 8) % 4294967296) ||| 0xff⟩).2 ++ F).length := by
          rw [List.length_append]
          omega
        have h5 : bytes[k+1+3]? = ((renormE f ⟨(s.lo <<< 8) % 4294967296,
            ((s.hi <<< 8) % 4294967296) ||| 0xff⟩).2 ++ F)[3]? := by
          rw [← List.getElem?_drop, hdrop1]
        have h6 : k+1+3 = k+4 := by omega
        rw [h6] at h5
        rw [h5, List.getElem?_eq_getElem hlen3]
        exact congrArg some (List.getD_eq_getElem _ 0 hlen3).symm
      rw [List.cons_append]
      have hstep := renormD_cons bytes
        ⟨val4 ((s.lo >>> 24) :: ((renormE f ⟨(s.lo <<< 8) % 4294967296,
          ((s.hi <<< 8) % 4294967296) ||| 0xff⟩).2 ++ F)), s.lo, s.hi, k + 4⟩
        (((renormE f ⟨(s.lo <<< 8) % 4294967296,
          ((s.hi <<< 8) % 4294967296) ||| 0xff⟩).2 ++ F).getD 3 0) hc hread f
      rw [hstep]
      rw [show (⟨val4 ((s.lo >>> 24) :: ((renormE f ⟨(s.lo <<< 8) % 4294967296,
          ((s.hi <<< 8) % 4294967296) ||| 0xff⟩).2 ++ F)), s.lo, s.hi,
          k + 4⟩ : BinArithDecoder).code = val4 ((s.lo >>> 24) ::
          ((renormE f ⟨(s.lo <<< 8) % 4294967296,
            ((s.hi <<< 8) % 4294967296) ||| 0xff⟩).2 ++ F)) from rfl,
        val4_shift _ _ hgd]
      have hfin := ih ⟨(s.lo <<< 8) % 4294967296, ((s.hi <<< 8) % 4294967296) ||| 0xff⟩
        _ _ rfl bytes F (k+1) hdrop1 hFlen hwf
      rw [List.length_cons,
        show k + ((renormE f ⟨(s.lo <<< 8) % 4294967296,
          ((s.hi <<< 8) % 4294967296) ||| 0xff⟩).2.length + 1) + 4 =
          k + 1 + (renormE f ⟨(s.lo <<< 8) % 4294967296,
            ((s.hi <<< 8) % 4294967296) ||| 0xff⟩).2.length + 4 from by omega]
      exact hfin
    · rw [renormE_stop s hc] at heq
      cases heq
      rw [renormD_stop bytes _ hc]
      simp

theorem encSubdiv_true (s : BinArithEncoder) (p : ℕ) :
    encSubdiv s true p = ⟨s.lo, mid s.lo s.hi p⟩ := rfl

theorem encSubdiv_false (s : BinArithEncoder) (p : ℕ) :
    encSubdiv s false p = ⟨(mid s.lo s.hi p + 1) % 4294967296, s.hi⟩ := rfl

theorem decSubdiv_pos (s : BinArithDecoder) (p : ℕ) (h : s.code ≤ mid s.lo s.hi p) :
    decSubdiv s p = (true, ⟨s.code, s.lo, mid s.lo s.hi p, s.read_pos⟩) := by
  show (if s.code ≤ mid s.lo s.hi p then
      (true, (⟨s.code, s.lo, mid s.lo s.hi p, s.read_pos⟩ : BinArithDecoder))
    else (false, ⟨s.code, (mid s.lo s.hi p + 1) % 4294967296, s.hi, s.read_pos⟩)) = _
  rw [if_pos h]

theorem decSubdiv_neg (s : BinArithDecoder) (p : ℕ) (h : ¬ s.code ≤ mid s.lo s.hi p) :
    decSubdiv s p =
      (false, ⟨s.code, (mid s.lo s.hi p + 1) % 4294967296, s.hi, s.read_pos⟩) := by
  show (if s.code ≤ mid s.lo s.hi p then
      (true, (⟨s.code, s.lo, mid s.lo s.hi p, s.read_pos⟩ : BinArithDecoder))
    else (false, ⟨s.code, (mid s.lo s.hi p + 1) % 4294967296, s.hi, s.read_pos⟩)) = _
  rw [if_neg h]

theorem decode_eq (s : BinArithDecoder) (bytes : List ℕ) (p : ℕ) :
    s.decode bytes p =
      (renormD 4 bytes (decSubdiv s p).2).map fun s2 => ((decSubdiv s p).1, s2) := rfl

/-- One synchronized coding step: from a synchronized pair, the decoder call
with the same probability returns exactly the encoded bit, consumes exactly
the renormalization bytes the encoder emitted, and the pair stays
synchronized on the remaining events. -/
theorem decode_step (es : BinArithEncoder) (b : Bool) (p : ℕ) (E : List (Bool × ℕ))
    (bytes : List ℕ) (ds : BinArithDecoder) (k : ℕ)
    (hsync : Synced bytes k es ds ((b, p) :: E)) (hp0 : 0 < p) (hp4 : p < 4096)
    (hpE : probsWF E) :
    ds.decode bytes p = .ok (b,
      ⟨val4 (bytes.drop (k + (es.encode b p).2.length)), (es.encode b p).1.lo,
        (es.encode b p).1.hi, k + (es.encode b p).2.length + 4⟩) ∧
    Synced bytes (k + (es.encode b p).2.length) (es.encode b p).1
      ⟨val4 (bytes.drop (k + (es.encode b p).2.length)), (es.encode b p).1.lo,
        (es.encode b p).1.hi, k + (es.encode b p).2.length + 4⟩ E := by
  unfold Synced at hsync
  obtain ⟨hInv, hdlo, hdhi, hdpos, hdropk, hcode, hwf⟩ := hsync
  set FF := (encodeBits (es.encode b p).1 E).2 ++
    flush (encodeBits (es.encode b p).1 E).1.lo with hFFdef
  have hdropk2 : bytes.drop k = (es.encode b p).2 ++ FF := by
    rw [hdropk, hFFdef]
    show (encodeBits es ((b, p) :: E)).2 ++ _ = _
    simp only [encodeBits]
    rw [List.append_assoc]
  have hInv1 : InvE (es.encode b p).1 := InvE_encode es b p hInv hp4
  have hnest2 := encodeBits_nest E (es.encode b p).1 hInv1 hpE
  have hstr := InvE_strict es hInv
  have hhiw : es.hi < 4294967296 := hInv.2.1
  have hsubb := encSubdiv_bounds es b p hstr hhiw hp4
  have houtwf : ∀ x ∈ (es.encode b p).2, x < 256 :=
    renormE_bytes_wf 4 (encSubdiv es b p) (by omega)
  have hFwf : bytesWF FF := by
    intro x hx
    rcases List.mem_append.mp hx with hm1 | hm1
    · exact encodeBits_bytes_wf E _ hInv1 hpE x hm1
    · have hInvf := InvE_encodeBits E _ hInv1 hpE
      exact flush_bytes_wf _ (by have := hInvf.1; have := hInvf.2.1; omega) x hm1
  have hnest1 := renorm_nest 4 (encSubdiv es b p) (es.encode b p).1 (es.encode b p).2
    rfl (by omega) (by omega) FF hFwf houtwf hnest2.1 hnest2.2
  have hdcode : ds.code = val4 ((es.encode b p).2 ++ FF) := by rw [hcode, hdropk2]
  have hmidd : mid ds.lo ds.hi p = mid es.lo es.hi p := by rw [hdlo, hdhi]
  have hFFlen : 4 ≤ FF.length := by
    rw [hFFdef, List.length_append, flush_length]
    omega
  have hsyncD := renorm_sync 4 (encSubdiv es b p) (es.encode b p).1 (es.encode b p).2
    rfl bytes FF k hdropk2 hFFlen hwf
  have hdropk' : bytes.drop (k + (es.encode b p).2.length) = FF := by
    have h2 := List.drop_drop (es.encode b p).2.length k bytes
    rw [hdropk2] at h2
    rw [← h2, List.drop_left]
  have hmain : ds.decode bytes p = .ok (b,
      ⟨val4 FF, (es.encode b p).1.lo, (es.encode b p).1.hi,
        k + (es.encode b p).2.length + 4⟩) := by
    cases b with
    | true =>
      have hle : ds.code ≤ mid ds.lo ds.hi p := by
        rw [hmidd, hdcode]
        have h3 := hnest1.2
        rw [encSubdiv_true, enc_mk_hi] at h3
        exact h3
      rw [decode_eq, decSubdiv_pos ds p hle]
      have hstate : (⟨ds.code, ds.lo, mid ds.lo ds.hi p, ds.read_pos⟩ : BinArithDecoder) =
          ⟨val4 ((es.encode true p).2 ++ FF), (encSubdiv es true p).lo,
            (encSubdiv es true p).hi, k + 4⟩ := by
        rw [encSubdiv_true, enc_mk_lo, enc_mk_hi, hdcode, hmidd, hdlo, hdpos]
      rw [show ((true, ⟨ds.code, ds.lo, mid ds.lo ds.hi p, ds.read_pos⟩) :
          Bool × BinArithDecoder).2 = ⟨ds.code, ds.lo, mid ds.lo ds.hi p, ds.read_pos⟩
          from rfl, hstate, hsyncD]
      rfl
    | false =>
      have hxlt := mid_lt_hi es.lo es.hi p hstr hhiw hp4
      have hxu := mid_lt_u32 es.lo es.hi p
      have hgt : ¬ ds.code ≤ mid ds.lo ds.hi p := by
        rw [hmidd, hdcode]
        have h3 := hnest1.1
        rw [encSubdiv_false, enc_mk_lo] at h3
        omega
      rw [decode_eq, decSubdiv_neg ds p hgt]
      have hstate : (⟨ds.code, (mid ds.lo ds.hi p + 1) % 4294967296, ds.hi,
          ds.read_pos⟩ : BinArithDecoder) =
          ⟨val4 ((es.encode false p).2 ++ FF), (encSubdiv es false p).lo,
            (encSubdiv es false p).hi, k + 4⟩ := by
        rw [encSubdiv_false, enc_mk_lo, enc_mk_hi, hdcode, hmidd, hdhi, hdpos]
      rw [show ((false, ⟨ds.code, (mid ds.lo ds.hi p + 1) % 4294967296, ds.hi,
          ds.read_pos⟩) : Bool × BinArithDecoder).2 =
          ⟨ds.code, (mid ds.lo ds.hi p + 1) % 4294967296, ds.hi, ds.read_pos⟩
          from rfl, hstate, hsyncD]
      rfl
  constructor
  · rw [hmain, hdropk']
  · unfold Synced
    refine ⟨hInv1, rfl, rfl, rfl, ?_, ?_, hwf⟩
    · rw [hdropk', hFFdef]
    · rfl

/-- Decoding with the encoder's probability sequence from a synchronized
state reproduces the encoded bit sequence. -/
theorem decodeBits_sync : ∀ (E : List (Bool × ℕ)) (bytes : List ℕ) (es : BinArithEncoder)
    (ds : BinArithDecoder) (k : ℕ), Synced bytes k es ds E → probsWF E →
    ∃ dsf, decodeBits bytes ds (E.map Prod.snd) = .ok (E.map Prod.fst, dsf) := by
  intro E
  induction E with
  | nil =>
    intro bytes es ds k _ _
    exact ⟨ds, rfl⟩
  | cons e rest ih =>
    intro bytes es ds k hsync hpE
    obtain ⟨b, p⟩ := e
    have hp1 := hpE (b, p) (List.mem_cons_self _ rest)
    have hp4 : p < 4096 := by
      have := hp1.2
      rw [kProbMax_eq] at this
      exact this
    have hrest : probsWF rest := fun x hx => hpE x (List.mem_cons_of_mem _ hx)
    have hstep := decode_step es b p rest bytes ds k hsync hp1.1 hp4 hrest
    set st : BinArithDecoder := ⟨val4 (bytes.drop (k + (es.encode b p).2.length)),
      (es.encode b p).1.lo, (es.encode b p).1.hi,
      k + (es.encode b p).2.length + 4⟩ with hst
    obtain ⟨dsf, hdec⟩ := ih bytes (es.encode b p).1 st _ hstep.2 hrest
    refine ⟨dsf, ?_⟩
    show decodeBits bytes ds (p :: rest.map Prod.snd) = _
    have e1 : decodeBits bytes ds (p :: rest.map Prod.snd) =
        match decodeBits bytes st (rest.map Prod.snd) with
        | .error e => .error e
        | .ok q => .ok (b :: q.1, q.2) := by
      rw [show decodeBits bytes ds (p :: rest.map Prod.snd) =
        (match ds.decode bytes p with
          | .error e => .error e
          | .ok r =>
            match decodeBits bytes r.2 (rest.map Prod.snd) with
            | .error e => .error e
            | .ok q => .ok (r.1 :: q.1, q.2)) from rfl, hstep.1]
    rw [e1, hdec]
    rfl

/-- Round trip over a whole session with an arbitrary in-range probability
sequence: decoding the encoder's output with the same probabilities yields
back exactly the encoded bits. -/
theorem roundtrip_events (E : List (Bool × ℕ)) (hE : probsWF E) :
    decodeStream (encodeStream E) (E.map Prod.snd) = .ok (E.map Prod.fst) := by
  have hInv0 : InvE encInit := encInit_InvE
  have hwf : bytesWF (encodeStream E) := by
    intro x hx
    show x < 256
    have hx2 : x ∈ (encodeBits encInit E).2 ++ flush (encodeBits encInit E).1.lo := hx
    rcases List.mem_append.mp hx2 with hm | hm
    · exact encodeBits_bytes_wf E encInit hInv0 hE x hm
    · have hInvf := InvE_encodeBits E encInit hInv0 hE
      exact flush_bytes_wf _ (by have := hInvf.1; have := hInvf.2.1; omega) x hm
  have hlen : 4 ≤ (encodeStream E).length := by
    show 4 ≤ ((encodeBits encInit E).2 ++ flush (encodeBits encInit E).1.lo).length
    rw [List.length_append, flush_length]
    omega
  have hinit := decInit_eq (encodeStream E) hlen hwf
  have hsync0 : Synced (encodeStream E) 0 encInit
      ⟨val4 (encodeStream E), 0, 4294967295, 4⟩ E := by
    unfold Synced
    refine ⟨hInv0, rfl, rfl, rfl, ?_, ?_, hwf⟩
    · rw [List.drop_zero]
      rfl
    · rw [List.drop_zero]
  obtain ⟨dsf, hdec⟩ := decodeBits_sync E (encodeStream E) encInit _ 0 hsync0 hE
  calc decodeStream (encodeStream E) (E.map Prod.snd)
      = (match decodeBits (encodeStream E) ⟨val4 (encodeStream E), 0, 4294967295, 4⟩
          (E.map Prod.snd) with
        | .error e => .error e
        | .ok r => .ok r.1) := by
        unfold decodeStream
        rw [hinit]
    _ = .ok (E.map Prod.fst) := by rw [hdec]

/-- C1: for every bit sequence `S` and every fixed probability `p` with
`0 < p < kProbMax`, encoding `S` at probability `p` (followed by finalization)
and then decoding the same number of bits from the resulting byte stream at
probability `p` yields back exactly `S`. -/
theorem static_roundtrip (S : List Bool) (p : ℕ) (h1 : 0 < p) (h2 : p < kProbMax) :
    decodeStream (encodeStream (S.map fun b => (b, p))) (S.map fun _ => p) = .ok S := by
  have h := roundtrip_events (S.map fun b => (b, p)) (by
    intro e he
    rcases List.mem_map.mp he with ⟨b, _, rfl⟩
    exact ⟨h1, h2⟩)
  rw [List.map_map, List.map_map] at h
  have h3 : List.map (Prod.fst ∘ fun b => (b, p)) S = S := by
    rw [show (Prod.fst ∘ fun b : Bool => (b, p)) = id from rfl, List.map_id]
  rw [h3] at h
  exact h

/-! Adaptive binary models: the update rule keeps probabilities strictly
inside `(0, kProbMax)`, and the model layer bookkeeping for bit trees. -/

theorem shl_pow (n : ℕ) : (1 : ℕ) <<< n = 2 ^ n := by
  rw [Nat.shiftLeft_eq, one_mul]

theorem model_mk_prob (a : ℕ) : (BinShiftModel.mk a).prob = a := rfl

theorem adapt_range (I : ℕ) (m : BinShiftModel) (bit : Bool) (hI : 1 ≤ I)
    (h1 : 0 < m.prob) (h2 : m.prob < kProbMax) :
    0 < (m.adapt I bit).prob ∧ (m.adapt I bit).prob < kProbMax := by
  rw [kProbMax_eq] at h2 ⊢
  have hpow : 2 ≤ 2 ^ I := by
    calc (2 : ℕ) = 2 ^ 1 := rfl
      _ ≤ 2 ^ I := Nat.pow_le_pow_right (by norm_num) hI
  cases bit
  · rw [show m.adapt I false = ⟨(m.prob - (m.prob >>> I)) % 65536⟩ from rfl, model_mk_prob,
      Nat.shiftRight_eq_div_pow]
    have hd2 : m.prob / 2 ^ I ≤ m.prob / 2 := Nat.div_le_div_left hpow (by norm_num)
    obtain ⟨q, hq⟩ : ∃ q, m.prob / 2 ^ I = q := ⟨_, rfl⟩
    rw [hq] at hd2 ⊢
    omega
  · rw [show m.adapt I true = ⟨(m.prob + ((kProbMax - m.prob) >>> I)) % 65536⟩ from rfl,
      model_mk_prob, Nat.shiftRight_eq_div_pow, kProbMax_eq]
    have hd2 : (4096 - m.prob) / 2 ^ I ≤ (4096 - m.prob) / 2 :=
      Nat.div_le_div_left hpow (by norm_num)
    obtain ⟨q, hq⟩ : ∃ q, (4096 - m.prob) / 2 ^ I = q := ⟨_, rfl⟩
    rw [hq] at hd2 ⊢
    omega

theorem initModels_wf (N : ℕ) : modelsWF (initModels N) := by
  intro m hm
  have heq := List.eq_of_mem_replicate hm
  subst heq
  exact ⟨by decide, by decide⟩

theorem initModels_length (N : ℕ) : (initModels N).length = (1 <<< N) - 1 :=
  List.length_replicate _ _

theorem modelsWF_getD (l : List BinShiftModel) (h : modelsWF l) (i : ℕ) :
    0 < (l.getD i BinShiftModel.init).prob ∧
      (l.getD i BinShiftModel.init).prob < kProbMax := by
  rw [List.getD_eq_getElem?_getD]
  cases hlt : l[i]? with
  | none => exact ⟨by decide, by decide⟩
  | some m => simpa using h m (mem_of_getElem_opt hlt)

theorem modelsWF_set (l : List BinShiftModel) (h : modelsWF l) (i : ℕ) (m : BinShiftModel)
    (hm : 0 < m.prob ∧ m.prob < kProbMax) : modelsWF (l.set i m) := by
  intro x hx
  rcases List.mem_or_eq_of_mem_set hx with h1 | h1
  · exact h x h1
  · subst h1; exact hm

theorem symTrace_wf : ∀ (f : ℕ) (I N ctx value : ℕ) (models : List BinShiftModel),
    1 ≤ I → modelsWF models →
    probsWF (symTrace I N f ctx value models).1 ∧
      modelsWF (symTrace I N f ctx value models).2 ∧
      (symTrace I N f ctx value models).2.length = models.length := by
  intro f
  induction f with
  | zero =>
    intro I N ctx value models _ hwf
    refine ⟨?_, hwf, rfl⟩
    intro e he
    simp [symTrace] at he
  | succ f ih =>
    intro I N ctx value models hI hwf
    by_cases hlt : ctx < 1 <<< N
    · have hget := modelsWF_getD models hwf (ctx - 1)
      have hadapt := adapt_range I (models.getD (ctx - 1) BinShiftModel.init)
        (decide (value &&& ((1 <<< N) / 2) ≠ 0)) hI hget.1 hget.2
      have hrec := ih I N ((ctx + ctx + (decide (value &&& ((1 <<< N) / 2) ≠ 0)).toNat)
          % 18446744073709551616) ((value + value) % 18446744073709551616)
        (models.set (ctx - 1) ((models.getD (ctx - 1) BinShiftModel.init).adapt I
          (decide (value &&& ((1 <<< N) / 2) ≠ 0)))) hI
        (modelsWF_set models hwf _ _ hadapt)
      rw [show symTrace I N (f+1) ctx value models =
        ((decide (value &&& ((1 <<< N) / 2) ≠ 0),
            (models.getD (ctx - 1) BinShiftModel.init).prob) ::
          (symTrace I N f ((ctx + ctx + (decide (value &&& ((1 <<< N) / 2) ≠ 0)).toNat)
              % 18446744073709551616) ((value + value) % 18446744073709551616)
            (models.set (ctx - 1) ((models.getD (ctx - 1) BinShiftModel.init).adapt I
              (decide (value &&& ((1 <<< N) / 2) ≠ 0))))).1,
          (symTrace I N f ((ctx + ctx + (decide (value &&& ((1 <<< N) / 2) ≠ 0)).toNat)
              % 18446744073709551616) ((value + value) % 18446744073709551616)
            (models.set (ctx - 1) ((models.getD (ctx - 1) BinShiftModel.init).adapt I
              (decide (value &&& ((1 <<< N) / 2) ≠ 0))))).2) from by
        simp only [symTrace, if_pos hlt]]
      refine ⟨?_, hrec.2.1, by rw [hrec.2.2, List.length_set]⟩
      intro e he
      rcases List.mem_cons.mp he with h1 | h1
      · subst h1; exact hget
      · exact hrec.1 e h1
    · rw [show symTrace I N (f+1) ctx value models = ([], models) from by
        simp only [symTrace, if_neg hlt]]
      refine ⟨?_, hwf, rfl⟩
      intro e he
      simp at he

theorem traceAll_wf : ∀ (vs : List ℕ) (I N : ℕ) (models : List BinShiftModel),
    1 ≤ I → modelsWF models →
    probsWF (traceAll I N vs models).1 ∧
      modelsWF (traceAll I N vs models).2 ∧
      (traceAll I N vs models).2.length = models.length := by
  intro vs
  induction vs with
  | nil =>
    intro I N models _ hwf
    refine ⟨?_, hwf, rfl⟩
    intro e he
    simp [traceAll] at he
  | cons v vs ih =>
    intro I N models hI hwf
    have hsym := symTrace_wf N I N 1 v models hI hwf
    have hrec := ih I N (symTrace I N N 1 v models).2 hI hsym.2.1
    rw [show traceAll I N (v :: vs) models =
      ((symTrace I N N 1 v models).1 ++ (traceAll I N vs (symTrace I N N 1 v models).2).1,
        (traceAll I N vs (symTrace I N N 1 v models).2).2) from by
      simp only [traceAll]]
    refine ⟨?_, hrec.2.1, by rw [hrec.2.2, hsym.2.2]⟩
    intro e he
    rcases List.mem_append.mp he with h1 | h1
    · exact hsym.1 e h1
    · exact hrec.1 e h1

/-! The bit-tree encoder factors through its (bit, probability) trace. -/

theorem treeEncLoop_eq : ∀ (f : ℕ) (I N ctx value : ℕ) (models : List BinShiftModel)
    (enc : BinArithEncoder),
    treeEncLoop I N f ctx value models enc =
      ((symTrace I N f ctx value models).2,
        (encodeBits enc (symTrace I N f ctx value models).1).1,
        (encodeBits enc (symTrace I N f ctx value models).1).2) := by
  intro f
  induction f with
  | zero => intro I N ctx value models enc; rfl
  | succ f ih =>
    intro I N ctx value models enc
    by_cases hlt : ctx < 1 <<< N
    · simp only [treeEncLoop, symTrace, if_pos hlt, BinShiftModel.encode, encodeBits]
      rw [ih]
    · simp only [treeEncLoop, symTrace, if_neg hlt, encodeBits]

theorem encodeBits_append : ∀ (E1 E2 : List (Bool × ℕ)) (s : BinArithEncoder),
    encodeBits s (E1 ++ E2) =
      ((encodeBits (encodeBits s E1).1 E2).1,
        (encodeBits s E1).2 ++ (encodeBits (encodeBits s E1).1 E2).2) := by
  intro E1
  induction E1 with
  | nil => intro E2 s; simp [encodeBits]
  | cons e rest ih =>
    intro E2 s
    simp only [List.cons_append, encodeBits, List.append_eq]
    rw [ih]
    simp [List.append_assoc]

theorem treeEncodeAll_eq : ∀ (vs : List ℕ) (I N : ℕ) (models : List BinShiftModel)
    (enc : BinArithEncoder), (∀ v ∈ vs, v < 1 <<< N) →
    treeEncodeAll I N models enc vs = .ok ((traceAll I N vs models).2,
      (encodeBits enc (traceAll I N vs models).1).1,
      (encodeBits enc (traceAll I N vs models).1).2) := by
  intro vs
  induction vs with
  | nil => intro I N models enc _; rfl
  | cons v vs ih =>
    intro I N models enc hv
    have hv1 : v < 1 <<< N := hv v (List.mem_cons_self _ _)
    have hBTE : BitTreeModel.encode I N models enc v = .ok ((symTrace I N N 1 v models).2,
        (encodeBits enc (symTrace I N N 1 v models).1).1,
        (encodeBits enc (symTrace I N N 1 v models).1).2) := by
      unfold BitTreeModel.encode
      rw [if_pos hv1, treeEncLoop_eq]
    have hih := ih I N (symTrace I N N 1 v models).2
      (encodeBits enc (symTrace I N N 1 v models).1).1
      (fun x hx => hv x (List.mem_cons_of_mem _ hx))
    calc treeEncodeAll I N models enc (v :: vs)
        = (match BitTreeModel.encode I N models enc v with
          | .error e => .error e
          | .ok r =>
            match treeEncodeAll I N r.1 r.2.1 vs with
            | .error e => .error e
            | .ok q => .ok (q.1, q.2.1, r.2.2 ++ q.2.2)) := rfl
      _ = (match treeEncodeAll I N (symTrace I N N 1 v models).2
            (encodeBits enc (symTrace I N N 1 v models).1).1 vs with
          | .error e => .error e
          | .ok q => .ok (q.1, q.2.1,
              (encodeBits enc (symTrace I N N 1 v models).1).2 ++ q.2.2)) := by
          rw [hBTE]
      _ = .ok ((traceAll I N (v :: vs) models).2,
            (encodeBits enc (traceAll I N (v :: vs) models).1).1,
            (encodeBits enc (traceAll I N (v :: vs) models).1).2) := by
          rw [hih]
          rw [show traceAll I N (v :: vs) models =
            ((symTrace I N N 1 v models).1 ++
                (traceAll I N vs (symTrace I N N 1 v models).2).1,
              (traceAll I N vs (symTrace I N N 1 v models).2).2) from by
            simp only [traceAll]]
          rw [encodeBits_append]

/-! Arithmetic of the bit-tree loop: the `value & kMSB` test reads off the
top remaining bit, and the context accumulates the symbol's bits. -/

theorem tree_bit_arith (N f u value : ℕ) (hfN : f + 1 ≤ N)
    (hu : u < 2 ^ (f+1)) (hval : value % 2 ^ N = u * 2 ^ (N - (f+1))) :
    (decide (value &&& ((1 <<< N) / 2) ≠ 0)).toNat = u / 2 ^ f := by
  have hN1 : 1 ≤ N := by omega
  have hmsb : (1 <<< N) / 2 = 2 ^ (N - 1) := by
    rw [shl_pow]
    rw [show (2:ℕ) ^ N = 2 ^ (N-1) * 2 from by
      rw [← pow_succ]
      congr 1
      omega]
    exact Nat.mul_div_cancel _ (by norm_num)
  have htb : value &&& 2 ^ (N-1) = (value.testBit (N-1)).toNat * 2 ^ (N-1) :=
    Nat.and_two_pow value (N-1)
  have hdiv : value / 2 ^ (N-1) % 2 = u / 2 ^ f := by
    have h1 : value % 2 ^ N / 2 ^ (N-1) = value / 2 ^ (N-1) % 2 := by
      rw [show (2:ℕ) ^ N = 2 ^ (N-1) * 2 from by
        rw [← pow_succ]
        congr 1
        omega]
      exact Nat.mod_mul_right_div_self value _ _
    have h2 : value % 2 ^ N / 2 ^ (N-1) = u / 2 ^ f := by
      rw [hval]
      rw [show (2:ℕ) ^ (N-1) = 2 ^ (N - (f+1)) * 2 ^ f from by
        rw [← pow_add]
        congr 1
        omega]
      rw [show u * 2 ^ (N - (f+1)) / (2 ^ (N - (f+1)) * 2 ^ f) =
        u * 2 ^ (N - (f+1)) / 2 ^ (N - (f+1)) / 2 ^ f from
        (Nat.div_div_eq_div_mul _ _ _).symm]
      rw [Nat.mul_div_cancel u (Nat.pos_pow_of_pos _ (by norm_num))]
    rw [← h1, h2]
  have hule : u / 2 ^ f ≤ 1 := by
    have h3 : u / 2 ^ f < 2 := by
      rw [Nat.div_lt_iff_lt_mul (Nat.pos_pow_of_pos f (by norm_num))]
      rw [show (2:ℕ) * 2 ^ f = 2 ^ (f+1) from by rw [pow_succ]; ring]
      exact hu
    omega
  rw [hmsb, htb]
  have htb2 : value.testBit (N-1) = decide (value / 2 ^ (N-1) % 2 = 1) :=
    Nat.testBit_to_div_mod
  rw [htb2, hdiv]
  rcases Nat.lt_or_ge (u / 2 ^ f) 1 with h | h
  · have h0 : u / 2 ^ f = 0 := by omega
    rw [h0]
    simp
  · have h1 : u / 2 ^ f = 1 := by omega
    rw [h1]
    simp

theorem tree_step_arith (N f u value ctx v : ℕ) (hfN : f + 1 ≤ N) (hN16 : N ≤ 16)
    (hu : u < 2 ^ (f+1)) (hval : value % 2 ^ N = u * 2 ^ (N - (f+1)))
    (hctx : ctx * 2 ^ (f+1) + u = 2 ^ N + v) (hv : v < 2 ^ N) :
    ctx < 2 ^ N ∧ u % 2 ^ f < 2 ^ f ∧
    (value + value) % 18446744073709551616 % 2 ^ N = u % 2 ^ f * 2 ^ (N - f) ∧
    (ctx + ctx + (decide (value &&& ((1 <<< N) / 2) ≠ 0)).toNat)
        % 18446744073709551616 * 2 ^ f + u % 2 ^ f = 2 ^ N + v := by
  have hCpos : 0 < 2 ^ f := Nat.pos_pow_of_pos _ (by norm_num)
  have h2P : 2 ≤ 2 ^ (f+1) := by
    calc (2:ℕ) = 2 ^ 1 := rfl
      _ ≤ 2 ^ (f+1) := Nat.pow_le_pow_right (by norm_num) (by omega)
  have hctxlt : ctx < 2 ^ N := by
    have hmono : ctx * 2 ≤ ctx * 2 ^ (f+1) := Nat.mul_le_mul_left _ h2P
    obtain ⟨q1, hq1⟩ : ∃ q, ctx * 2 ^ (f+1) = q := ⟨_, rfl⟩
    rw [hq1] at hctx hmono
    omega
  have hCB : 2 ^ f * 2 ^ (N - f) = 2 ^ N := by
    rw [← pow_add]
    congr 1
    omega
  have humod : u % 2 ^ f < 2 ^ f := Nat.mod_lt _ hCpos
  have hudiv : u / 2 ^ f < 2 := by
    rw [Nat.div_lt_iff_lt_mul hCpos]
    rw [show (2:ℕ) * 2 ^ f = 2 ^ (f+1) from by rw [pow_succ]; ring]
    exact hu
  refine ⟨hctxlt, humod, ?_, ?_⟩
  · have habs : (value + value) % 18446744073709551616 % 2 ^ N = (value + value) % 2 ^ N :=
      Nat.mod_mod_of_dvd _ (by
        rw [show (18446744073709551616 : ℕ) = 2 ^ 64 from by norm_num]
        exact pow_dvd_pow 2 (by omega))
    have hsum : (value + value) % 2 ^ N = (value % 2 ^ N + value % 2 ^ N) % 2 ^ N := by
      rw [Nat.add_mod]
    rw [habs, hsum, hval]
    have hdm := Nat.div_add_mod u (2 ^ f)
    have e1 : u * 2 ^ (N - (f+1)) + u * 2 ^ (N - (f+1)) =
        u / 2 ^ f * 2 ^ N + u % 2 ^ f * 2 ^ (N - f) := by
      calc u * 2 ^ (N - (f+1)) + u * 2 ^ (N - (f+1)) = u * (2 ^ (N - (f+1)) * 2) := by ring
        _ = u * 2 ^ (N - f) := by
            rw [show (2:ℕ) ^ (N - (f+1)) * 2 = 2 ^ (N - f) from by
              rw [← pow_succ]
              congr 1
              omega]
        _ = (2 ^ f * (u / 2 ^ f) + u % 2 ^ f) * 2 ^ (N - f) := by rw [hdm]
        _ = u / 2 ^ f * (2 ^ f * 2 ^ (N - f)) + u % 2 ^ f * 2 ^ (N - f) := by ring
        _ = u / 2 ^ f * 2 ^ N + u % 2 ^ f * 2 ^ (N - f) := by rw [hCB]
    rw [e1]
    have hlt2 : u % 2 ^ f * 2 ^ (N - f) < 2 ^ N := by
      rw [← hCB]
      exact (Nat.mul_lt_mul_right (Nat.pos_pow_of_pos (N - f) (by norm_num))).mpr humod
    rw [Nat.mul_comm (u / 2 ^ f) (2 ^ N), Nat.mul_add_mod, Nat.mod_eq_of_lt hlt2]
  · have hbit := tree_bit_arith N f u value hfN hu hval
    have hXle : (2:ℕ) ^ N ≤ 65536 := by
      calc (2:ℕ) ^ N ≤ 2 ^ 16 := Nat.pow_le_pow_right (by norm_num) hN16
        _ = 65536 := by norm_num
    have hctx65 : ctx < 65536 := lt_of_lt_of_le hctxlt hXle
    have hsmall : ctx + ctx + (decide (value &&& ((1 <<< N) / 2) ≠ 0)).toNat <
        18446744073709551616 := by
      rw [hbit]
      omega
    rw [Nat.mod_eq_of_lt hsmall, hbit]
    have hdm := Nat.div_add_mod u (2 ^ f)
    calc (ctx + ctx + u / 2 ^ f) * 2 ^ f + u % 2 ^ f
        = ctx * (2 ^ f * 2) + (2 ^ f * (u / 2 ^ f) + u % 2 ^ f) := by ring
      _ = ctx * 2 ^ (f+1) + u := by
          rw [hdm, show (2:ℕ) ^ f * 2 = 2 ^ (f+1) from by rw [pow_succ]]
      _ = 2 ^ N + v := hctx

/-- Decoder-side simulation of one bit-tree symbol: from a synchronized pair
whose remaining events start with the symbol's trace, the decode loop follows
the exact context path of the encode loop, rebuilds `ctx = kNumSyms + v`,
performs the same model updates, and stays synchronized afterwards. -/
theorem treeDec_sync : ∀ (f : ℕ) (I N ctx value u v : ℕ) (models : List BinShiftModel)
    (E2 : List (Bool × ℕ)) (bytes : List ℕ) (es : BinArithEncoder) (ds : BinArithDecoder)
    (k : ℕ),
    1 ≤ I → modelsWF models →
    f ≤ N → N ≤ 16 → v < 2 ^ N →
    u < 2 ^ f → value % 2 ^ N = u * 2 ^ (N - f) → ctx * 2 ^ f + u = 2 ^ N + v →
    Synced bytes k es ds ((symTrace I N f ctx value models).1 ++ E2) →
    probsWF E2 →
    ∃ ds2 k2, treeDecLoop I N bytes f ctx models ds =
        .ok (2 ^ N + v, (symTrace I N f ctx value models).2, ds2) ∧
      Synced bytes k2 (encodeBits es (symTrace I N f ctx value models).1).1 ds2 E2 := by
  intro f
  induction f with
  | zero =>
    intro I N ctx value u v models E2 bytes es ds k hI hwf hfN hN16 hv hu hval hctx hsync hp2
    have hu0 : u = 0 := by
      have h1 : u < 1 := by simpa using hu
      omega
    have hctx2 : ctx = 2 ^ N + v := by
      rw [pow_zero] at hctx
      omega
    refine ⟨ds, k, ?_, ?_⟩
    · rw [show treeDecLoop I N bytes 0 ctx models ds = .ok (ctx, models, ds) from rfl, hctx2]
      rfl
    · have h0 : (symTrace I N 0 ctx value models).1 = [] := rfl
      rw [h0, List.nil_append] at hsync
      exact hsync
  | succ f ih =>
    intro I N ctx value u v models E2 bytes es ds k hI hwf hfN hN16 hv hu hval hctx hsync hp2
    have harith := tree_step_arith N f u value ctx v hfN hN16 hu hval hctx hv
    have hlt : ctx < 1 <<< N := by rw [shl_pow]; exact harith.1
    have hget := modelsWF_getD models hwf (ctx - 1)
    have hp4 : (models.getD (ctx - 1) BinShiftModel.init).prob < 4096 := by
      have := hget.2
      rw [kProbMax_eq] at this
      exact this
    have hMwf2 : modelsWF (models.set (ctx - 1) ((models.getD (ctx - 1) BinShiftModel.init).adapt I (decide (value &&& ((1 <<< N) / 2) ≠ 0)))) :=
      modelsWF_set models hwf _ _ (adapt_range I _ _ hI hget.1 hget.2)
    have htr : symTrace I N (f+1) ctx value models =
        (((decide (value &&& ((1 <<< N) / 2) ≠ 0)), (models.getD (ctx - 1) BinShiftModel.init).prob) :: (symTrace I N f ((ctx + ctx + (decide (value &&& ((1 <<< N) / 2) ≠ 0)).toNat) % 18446744073709551616) ((value + value) % 18446744073709551616) (models.set (ctx - 1) ((models.getD (ctx - 1) BinShiftModel.init).adapt I (decide (value &&& ((1 <<< N) / 2) ≠ 0))))).1, (symTrace I N f ((ctx + ctx + (decide (value &&& ((1 <<< N) / 2) ≠ 0)).toNat) % 18446744073709551616) ((value + value) % 18446744073709551616) (models.set (ctx - 1) ((models.getD (ctx - 1) BinShiftModel.init).adapt I (decide (value &&& ((1 <<< N) / 2) ≠ 0))))).2) := by
      simp only [symTrace, if_pos hlt]
    rw [htr, List.cons_append] at hsync
    have hTRwf := (symTrace_wf f I N ((ctx + ctx + (decide (value &&& ((1 <<< N) / 2) ≠ 0)).toNat) % 18446744073709551616) ((value + value) % 18446744073709551616) (models.set (ctx - 1) ((models.getD (ctx - 1) BinShiftModel.init).adapt I (decide (value &&& ((1 <<< N) / 2) ≠ 0)))) hI hMwf2).1
    have hTE : probsWF ((symTrace I N f ((ctx + ctx + (decide (value &&& ((1 <<< N) / 2) ≠ 0)).toNat) % 18446744073709551616) ((value + value) % 18446744073709551616) (models.set (ctx - 1) ((models.getD (ctx - 1) BinShiftModel.init).adapt I (decide (value &&& ((1 <<< N) / 2) ≠ 0))))).1 ++ E2) := by
      intro x hx
      rcases List.mem_append.mp hx with h | h
      · exact hTRwf x h
      · exact hp2 x h
    have hstep := decode_step es (decide (value &&& ((1 <<< N) / 2) ≠ 0)) (models.getD (ctx - 1) BinShiftModel.init).prob ((symTrace I N f ((ctx + ctx + (decide (value &&& ((1 <<< N) / 2) ≠ 0)).toNat) % 18446744073709551616) ((value + value) % 18446744073709551616) (models.set (ctx - 1) ((models.getD (ctx - 1) BinShiftModel.init).adapt I (decide (value &&& ((1 <<< N) / 2) ≠ 0))))).1 ++ E2) bytes ds k hsync hget.1 hp4 hTE
    set st : BinArithDecoder := ⟨val4 (bytes.drop (k + (es.encode (decide (value &&& ((1 <<< N) / 2) ≠ 0)) (models.getD (ctx - 1) BinShiftModel.init).prob).2.length)),
      (es.encode (decide (value &&& ((1 <<< N) / 2) ≠ 0)) (models.getD (ctx - 1) BinShiftModel.init).prob).1.lo, (es.encode (decide (value &&& ((1 <<< N) / 2) ≠ 0)) (models.getD (ctx - 1) BinShiftModel.init).prob).1.hi,
      k + (es.encode (decide (value &&& ((1 <<< N) / 2) ≠ 0)) (models.getD (ctx - 1) BinShiftModel.init).prob).2.length + 4⟩ with hst
    obtain ⟨ds2, k2, hloop, hsync2⟩ := ih I N ((ctx + ctx + (decide (value &&& ((1 <<< N) / 2) ≠ 0)).toNat) % 18446744073709551616) ((value + value) % 18446744073709551616) (u % 2 ^ f) v (models.set (ctx - 1) ((models.getD (ctx - 1) BinShiftModel.init).adapt I (decide (value &&& ((1 <<< N) / 2) ≠ 0)))) E2 bytes
      (es.encode (decide (value &&& ((1 <<< N) / 2) ≠ 0)) (models.getD (ctx - 1) BinShiftModel.init).prob).1 st (k + (es.encode (decide (value &&& ((1 <<< N) / 2) ≠ 0)) (models.getD (ctx - 1) BinShiftModel.init).prob).2.length) hI hMwf2
      (by omega) hN16 hv harith.2.1 harith.2.2.1 harith.2.2.2 hstep.2 hp2
    refine ⟨ds2, k2, ?_, ?_⟩
    · have hdec1 : (models.getD (ctx - 1) BinShiftModel.init).decode I bytes ds =
          .ok ((decide (value &&& ((1 <<< N) / 2) ≠ 0)), (models.getD (ctx - 1) BinShiftModel.init).adapt I (decide (value &&& ((1 <<< N) / 2) ≠ 0)), st) := by
        unfold BinShiftModel.decode
        rw [hstep.1]
      rw [htr]
      calc treeDecLoop I N bytes (f+1) ctx models ds
          = (match (models.getD (ctx - 1) BinShiftModel.init).decode I bytes ds with
              | .error e => .error e
              | .ok r => treeDecLoop I N bytes f
                  ((ctx + ctx + r.1.toNat) % 18446744073709551616)
                  (models.set (ctx - 1) r.2.1) r.2.2) := by
            simp only [treeDecLoop, if_pos hlt]
        _ = treeDecLoop I N bytes f ((ctx + ctx + (decide (value &&& ((1 <<< N) / 2) ≠ 0)).toNat) % 18446744073709551616) (models.set (ctx - 1) ((models.getD (ctx - 1) BinShiftModel.init).adapt I (decide (value &&& ((1 <<< N) / 2) ≠ 0)))) st := by rw [hdec1]
        _ = .ok (2 ^ N + v, (symTrace I N f ((ctx + ctx + (decide (value &&& ((1 <<< N) / 2) ≠ 0)).toNat) % 18446744073709551616) ((value + value) % 18446744073709551616) (models.set (ctx - 1) ((models.getD (ctx - 1) BinShiftModel.init).adapt I (decide (value &&& ((1 <<< N) / 2) ≠ 0))))).2, ds2) := hloop
    · rw [htr]
      exact hsync2


/-- Decoder-side simulation over a whole symbol list. -/
theorem treeAll_sync : ∀ (vs : List ℕ) (I N : ℕ) (models : List BinShiftModel)
    (bytes : List ℕ) (es : BinArithEncoder) (ds : BinArithDecoder) (k : ℕ),
    1 ≤ I → modelsWF models → N ≤ 16 → (∀ v ∈ vs, v < 2 ^ N) →
    Synced bytes k es ds (traceAll I N vs models).1 →
    ∃ ds2 k2, treeDecodeAll I N bytes vs.length models ds =
        .ok (vs, (traceAll I N vs models).2, ds2) ∧
      Synced bytes k2 (encodeBits es (traceAll I N vs models).1).1 ds2 [] := by
  intro vs
  induction vs with
  | nil =>
    intro I N models bytes es ds k _ _ _ _ hsync
    exact ⟨ds, k, rfl, hsync⟩
  | cons v vs ih =>
    intro I N models bytes es ds k hI hwf hN16 hv hsync
    have hv1 : v < 2 ^ N := hv v (List.mem_cons_self _ _)
    have htrall : traceAll I N (v :: vs) models =
        ((symTrace I N N 1 v models).1 ++
            (traceAll I N vs (symTrace I N N 1 v models).2).1,
          (traceAll I N vs (symTrace I N N 1 v models).2).2) := by
      simp only [traceAll]
    rw [htrall] at hsync
    have hsymwf := symTrace_wf N I N 1 v models hI hwf
    have hq2wf := traceAll_wf vs I N (symTrace I N N 1 v models).2 hI hsymwf.2.1
    have hval : v % 2 ^ N = v * 2 ^ (N - N) := by
      rw [Nat.sub_self, pow_zero, mul_one, Nat.mod_eq_of_lt hv1]
    have hctx : 1 * 2 ^ N + v = 2 ^ N + v := by rw [one_mul]
    obtain ⟨ds1, k1, hloop, hsync1⟩ := treeDec_sync N I N 1 v v v models
      (traceAll I N vs (symTrace I N N 1 v models).2).1 bytes es ds k hI hwf
      (le_refl N) hN16 hv1 hv1 hval hctx hsync hq2wf.1
    have hBTD : BitTreeModel.decode I N models bytes ds =
        .ok (v, (symTrace I N N 1 v models).2, ds1) := by
      calc BitTreeModel.decode I N models bytes ds
          = (match treeDecLoop I N bytes N 1 models ds with
              | .error e => .error e
              | .ok r => .ok (r.1 - (1 <<< N), r.2)) := rfl
        _ = .ok (2 ^ N + v - (1 <<< N), (symTrace I N N 1 v models).2, ds1) := by rw [hloop]
        _ = .ok (v, (symTrace I N N 1 v models).2, ds1) := by
            rw [shl_pow, Nat.add_sub_cancel_left]
    obtain ⟨ds2, k2, hall, hsync2⟩ := ih I N (symTrace I N N 1 v models).2 bytes
      (encodeBits es (symTrace I N N 1 v models).1).1 ds1 k1 hI hsymwf.2.1 hN16
      (fun x hx => hv x (List.mem_cons_of_mem _ hx)) hsync1
    refine ⟨ds2, k2, ?_, ?_⟩
    · rw [List.length_cons]
      calc treeDecodeAll I N bytes (vs.length + 1) models ds
          = (match BitTreeModel.decode I N models bytes ds with
              | .error e => .error e
              | .ok r =>
                match treeDecodeAll I N bytes vs.length r.2.1 r.2.2 with
                | .error e => .error e
                | .ok q => .ok (r.1 :: q.1, q.2)) := rfl
        _ = (match treeDecodeAll I N bytes vs.length (symTrace I N N 1 v models).2 ds1 with
              | .error e => .error e
              | .ok q => .ok (v :: q.1, q.2)) := by rw [hBTD]
        _ = .ok (v :: vs, (traceAll I N (v :: vs) models).2, ds2) := by
            rw [hall, htrall]
    · rw [htrall, encodeBits_append]
      exact hsync2

/-- C2: for every `NumBits` in `[1, 16]` and every sequence of symbol values
each in `[0, 2^NumBits)`, encoding the sequence with a freshly constructed
`BitTreeModel` (over adaptive binary models) and decoding the resulting byte
stream with an independently, identically constructed `BitTreeModel`
reproduces the exact symbol sequence, in order. -/
theorem tree_roundtrip (Inertia NumBits : ℕ) (vals : List ℕ) (hI : 1 ≤ Inertia)
    (hN1 : 1 ≤ NumBits) (hN16 : NumBits ≤ 16) (hv : ∀ v ∈ vals, v < 1 <<< NumBits) :
    ∃ out, treeEncodeStream Inertia NumBits vals = .ok out ∧
      treeDecodeStream Inertia NumBits out vals.length = .ok vals := by
  have hTwf : probsWF (traceAll Inertia NumBits vals (initModels NumBits)).1 :=
    (traceAll_wf vals Inertia NumBits (initModels NumBits) hI (initModels_wf _)).1
  have hInv0 := encInit_InvE
  refine ⟨(encodeBits encInit (traceAll Inertia NumBits vals (initModels NumBits)).1).2 ++
    flush (encodeBits encInit (traceAll Inertia NumBits vals (initModels NumBits)).1).1.lo,
    ?_, ?_⟩
  · unfold treeEncodeStream
    rw [treeEncodeAll_eq vals Inertia NumBits (initModels NumBits) encInit hv]
  · have hwfS : bytesWF ((encodeBits encInit
        (traceAll Inertia NumBits vals (initModels NumBits)).1).2 ++
        flush (encodeBits encInit
          (traceAll Inertia NumBits vals (initModels NumBits)).1).1.lo) := by
      intro x hx
      rcases List.mem_append.mp hx with hm | hm
      · exact encodeBits_bytes_wf _ encInit hInv0 hTwf x hm
      · have hInvf := InvE_encodeBits _ encInit hInv0 hTwf
        exact flush_bytes_wf _ (by have := hInvf.1; have := hInvf.2.1; omega) x hm
    have hlenS : 4 ≤ ((encodeBits encInit
        (traceAll Inertia NumBits vals (initModels NumBits)).1).2 ++
        flush (encodeBits encInit
          (traceAll Inertia NumBits vals (initModels NumBits)).1).1.lo).length := by
      rw [List.length_append, flush_length]
      omega
    have hinit := decInit_eq _ hlenS hwfS
    have hsync0 : Synced ((encodeBits encInit
        (traceAll Inertia NumBits vals (initModels NumBits)).1).2 ++
        flush (encodeBits encInit
          (traceAll Inertia NumBits vals (initModels NumBits)).1).1.lo) 0 encInit
        ⟨val4 ((encodeBits encInit
            (traceAll Inertia NumBits vals (initModels NumBits)).1).2 ++
          flush (encodeBits encInit
            (traceAll Inertia NumBits vals (initModels NumBits)).1).1.lo), 0, 4294967295, 4⟩
        (traceAll Inertia NumBits vals (initModels NumBits)).1 := by
      unfold Synced
      refine ⟨hInv0, rfl, rfl, rfl, ?_, ?_, hwfS⟩
      · rw [List.drop_zero]
      · rw [List.drop_zero]
    obtain ⟨ds2, k2, hall, _⟩ := treeAll_sync vals Inertia NumBits (initModels NumBits) _
      encInit _ 0 hI (initModels_wf _) hN16
      (fun x hx => by rw [← shl_pow]; exact hv x hx) hsync0
    calc treeDecodeStream Inertia NumBits ((encodeBits encInit
        (traceAll Inertia NumBits vals (initModels NumBits)).1).2 ++
        flush (encodeBits encInit
          (traceAll Inertia NumBits vals (initModels NumBits)).1).1.lo) vals.length
        = (match treeDecodeAll Inertia NumBits ((encodeBits encInit
        (traceAll Inertia NumBits vals (initModels NumBits)).1).2 ++
        flush (encodeBits encInit
          (traceAll Inertia NumBits vals (initModels NumBits)).1).1.lo) vals.length (initModels NumBits)
            ⟨val4 ((encodeBits encInit
        (traceAll Inertia NumBits vals (initModels NumBits)).1).2 ++
        flush (encodeBits encInit
          (traceAll Inertia NumBits vals (initModels NumBits)).1).1.lo), 0, 4294967295, 4⟩ with
          | .error e => .error e
          | .ok r => .ok r.1) := by
          unfold treeDecodeStream
          rw [hinit]
      _ = .ok vals := by rw [hall]

/-! Reachability invariants and failure characterizations. -/

theorem EncReach_InvE (s : BinArithEncoder) (h : EncReach s) : InvE s := by
  induction h with
  | init => exact encInit_InvE
  | step s bit prob _ hp0 hpk ih =>
    exact InvE_encode s bit prob ih (by rw [kProbMax_eq] at hpk; exact hpk)

theorem decInitFuel_code_lt : ∀ (f : ℕ) (bytes : List ℕ) (code pos : ℕ) (cp : ℕ × ℕ),
    decInitFuel f bytes code pos = .ok cp → code < 4294967296 → cp.1 < 4294967296 := by
  intro f
  induction f with
  | zero =>
    intro bytes code pos cp h hc
    simp only [decInitFuel] at h
    cases h
    exact hc
  | succ f ih =>
    intro bytes code pos cp h hc
    cases hread : bytes[pos]? with
    | none =>
      simp only [decInitFuel, hread] at h
      exact absurd h (by simp)
    | some b =>
      rw [decInitFuel_cons f bytes code pos b hread] at h
      exact ih bytes _ (pos + 1) cp h (by omega)

/-- A successful decoder construction starts with the full `uint32_t` interval
and a `uint32_t` lookahead word. -/
theorem decInit_ok_fields (bytes : List ℕ) (s : BinArithDecoder) (h : decInit bytes = .ok s) :
    s.lo = 0 ∧ s.hi = 4294967295 ∧ s.code < 4294967296 := by
  unfold decInit at h
  cases hf : decInitFuel 4 bytes 0 0 with
  | error e => rw [hf] at h; simp [Except.map] at h
  | ok cp =>
    rw [hf] at h
    simp only [Except.map] at h
    cases h
    exact ⟨rfl, rfl, decInitFuel_code_lt 4 bytes 0 0 cp hf (by norm_num)⟩

theorem decInitFuel_short : ∀ (f : ℕ) (bytes : List ℕ) (code pos : ℕ),
    bytes.length < pos + f → pos ≤ bytes.length →
    decInitFuel f bytes code pos = .error .outOfData := by
  intro f
  induction f with
  | zero =>
    intro bytes code pos h1 h2
    exact absurd h1 (by omega)
  | succ f ih =>
    intro bytes code pos h1 h2
    by_cases hp : pos < bytes.length
    · have hread : bytes[pos]? = some bytes[pos] := List.getElem?_eq_getElem hp
      rw [decInitFuel_cons f bytes code pos _ hread]
      exact ih bytes _ (pos + 1) (by omega) (by omega)
    · have hread : bytes[pos]? = none := List.getElem?_eq_none (by omega)
      simp only [decInitFuel, hread]

/-- The constructor reads 4 bytes: on a shorter source it runs out of data. -/
theorem decInit_short (bytes : List ℕ) (h : bytes.length < 4) :
    decInit bytes = .error .outOfData := by
  unfold decInit
  rw [decInitFuel_short 4 bytes 0 0 (by omega) (by omega)]
  rfl

/-- Inversion of a successful `decode` call: the renormalization succeeded on
the subdivided state and the returned bit is the subdivision's. -/
theorem decode_ok_elim (bytes : List ℕ) (s : BinArithDecoder) (p : ℕ) (b : Bool)
    (s' : BinArithDecoder) (h : s.decode bytes p = .ok (b, s')) :
    renormD 4 bytes (decSubdiv s p).2 = .ok s' ∧ (decSubdiv s p).1 = b := by
  rw [decode_eq] at h
  cases hre : renormD 4 bytes (decSubdiv s p).2 with
  | error e => rw [hre] at h; simp [Except.map] at h
  | ok s2 =>
    rw [hre] at h
    simp only [Except.map, Except.ok.injEq, Prod.mk.injEq] at h
    obtain ⟨h1, h2⟩ := h
    subst h2
    exact ⟨rfl, h1⟩

/-- The decoder's subdivision step keeps the interval nested and nonempty
(in particular the `bit = 0` branch never sets `lo` above `hi`). -/
theorem decSubdiv_interval (s : BinArithDecoder) (p : ℕ) (h1 : s.lo < s.hi)
    (h2 : s.hi < 4294967296) (h3 : p < 4096) :
    s.lo ≤ (decSubdiv s p).2.lo ∧ (decSubdiv s p).2.lo ≤ (decSubdiv s p).2.hi ∧
      (decSubdiv s p).2.hi ≤ s.hi ∧ (decSubdiv s p).2.hi < 4294967296 := by
  have hm := mid_bounds s.lo s.hi p (le_of_lt h1) h2 (le_of_lt h3)
  have hm2 := mid_lt_hi s.lo s.hi p h1 h2 h3
  by_cases hc : s.code ≤ mid s.lo s.hi p
  · rw [decSubdiv_pos s p hc,
      show ((true, (⟨s.code, s.lo, mid s.lo s.hi p, s.read_pos⟩ : BinArithDecoder)) :
        Bool × BinArithDecoder).2 = ⟨s.code, s.lo, mid s.lo s.hi p, s.read_pos⟩ from rfl]
    simp only [dec_mk_lo, dec_mk_hi]
    omega
  · rw [decSubdiv_neg s p hc,
      show ((false, (⟨s.code, (mid s.lo s.hi p + 1) % 4294967296, s.hi, s.read_pos⟩ :
        BinArithDecoder)) : Bool × BinArithDecoder).2 =
        ⟨s.code, (mid s.lo s.hi p + 1) % 4294967296, s.hi, s.read_pos⟩ from rfl]
    simp only [dec_mk_lo, dec_mk_hi]
    omega

/-- A successful `decode` call restores the decoder's interval invariant. -/
theorem decode_pres (bytes : List ℕ) (s : BinArithDecoder) (p : ℕ) (b : Bool)
    (s' : BinArithDecoder) (hok : s.decode bytes p = .ok (b, s'))
    (h1 : s.lo < s.hi) (h2 : s.hi < 4294967296) (h3 : p < 4096) :
    s'.lo ≤ s'.hi ∧ s'.hi < 4294967296 ∧ ¬ s'.lo ^^^ s'.hi < 1 <<< 24 := by
  obtain ⟨hre, -⟩ := decode_ok_elim bytes s p b s' hok
  have hsub := decSubdiv_interval s p h1 h2 h3
  have hLH := renormD_loHi 4 bytes _ s' hre
  have hpres := renormE_pres 4 ⟨(decSubdiv s p).2.lo, (decSubdiv s p).2.hi⟩
    (by simp only [enc_mk_lo, enc_mk_hi]; omega) (by simp only [enc_mk_hi]; omega)
  have hdone := renormE_four_done ⟨(decSubdiv s p).2.lo, (decSubdiv s p).2.hi⟩
    (by simp only [enc_mk_lo]; omega) (by simp only [enc_mk_hi]; omega)
  rw [hLH] at hpres hdone
  simp only [enc_mk_lo, enc_mk_hi] at hpres hdone
  exact ⟨hpres.1, hpres.2, hdone⟩

/-- Reachable decoder states (well-formed probabilities) satisfy the same
interval invariant as the encoder's. -/
theorem DecReachP_inv (bytes : List ℕ) (s : BinArithDecoder) (h : DecReachP bytes s) :
    s.lo < s.hi ∧ s.hi < 4294967296 ∧ ¬ s.lo ^^^ s.hi < 1 <<< 24 := by
  induction h with
  | init s hs =>
    obtain ⟨hlo, hhi, -⟩ := decInit_ok_fields bytes s hs
    rw [hlo, hhi]
    exact ⟨by norm_num, by norm_num, by decide⟩
  | step s prob b s' hreach hp0 hpk hok ih =>
    have hpk4 : prob < 4096 := by rw [kProbMax_eq] at hpk; exact hpk
    have hp := decode_pres bytes s prob b s' hok ih.1 ih.2.1 hpk4
    have hstrict : s'.lo < s'.hi := by
      rcases Nat.lt_or_ge s'.lo s'.hi with hlt | hge
      · exact hlt
      · exfalso
        apply hp.2.2
        have heq : s'.lo = s'.hi := le_antisymm hp.1 hge
        rw [heq, Nat.xor_self]
        decide
    exact ⟨hstrict, hp.2.1, hp.2.2⟩

/-- The decoder's subdivision step never moves `code` out of `[lo, hi]`, for
any probability argument whatsoever. -/
theorem decSubdiv_code (s : BinArithDecoder) (p : ℕ)
    (h1 : s.code < 4294967296) (h2 : s.hi < 4294967296)
    (h3 : s.lo ≤ s.code) (h4 : s.code ≤ s.hi) :
    (decSubdiv s p).2.code = s.code ∧ (decSubdiv s p).2.hi < 4294967296 ∧
      (decSubdiv s p).2.lo ≤ (decSubdiv s p).2.code ∧
      (decSubdiv s p).2.code ≤ (decSubdiv s p).2.hi := by
  have hmu := mid_lt_u32 s.lo s.hi p
  by_cases hc : s.code ≤ mid s.lo s.hi p
  · rw [decSubdiv_pos s p hc,
      show ((true, (⟨s.code, s.lo, mid s.lo s.hi p, s.read_pos⟩ : BinArithDecoder)) :
        Bool × BinArithDecoder).2 = ⟨s.code, s.lo, mid s.lo s.hi p, s.read_pos⟩ from rfl]
    simp only [dec_mk_code, dec_mk_lo, dec_mk_hi, true_and]
    omega
  · rw [decSubdiv_neg s p hc,
      show ((false, (⟨s.code, (mid s.lo s.hi p + 1) % 4294967296, s.hi, s.read_pos⟩ :
        BinArithDecoder)) : Bool × BinArithDecoder).2 =
        ⟨s.code, (mid s.lo s.hi p + 1) % 4294967296, s.hi, s.read_pos⟩ from rfl]
    simp only [dec_mk_code, dec_mk_lo, dec_mk_hi, true_and]
    omega

/-- `lo ≤ code ≤ hi` holds at every decoder state reachable with arbitrary
probability arguments over a well-formed source. -/
theorem DecReach_code_inv (bytes : List ℕ) (s : BinArithDecoder) (hwf : bytesWF bytes)
    (h : DecReach bytes s) :
    s.code < 4294967296 ∧ s.hi < 4294967296 ∧ s.lo ≤ s.code ∧ s.code ≤ s.hi := by
  induction h with
  | init s hs =>
    obtain ⟨hlo, hhi, hcode⟩ := decInit_ok_fields bytes s hs
    rw [hlo, hhi]
    exact ⟨hcode, by norm_num, Nat.zero_le _, by omega⟩
  | step s prob b s' hreach hok ih =>
    obtain ⟨hre, -⟩ := decode_ok_elim bytes s prob b s' hok
    have hsub := decSubdiv_code s prob ih.1 ih.2.1 ih.2.2.1 ih.2.2.2
    have hpres := renormD_code_pres 4 bytes (decSubdiv s prob).2 s' hre hwf
      (by rw [hsub.1]; exact ih.1) hsub.2.1 hsub.2.2.1 hsub.2.2.2
    have hLH := renormD_loHi 4 bytes (decSubdiv s prob).2 s' hre
    have hpres2 := renormE_pres 4 ⟨(decSubdiv s prob).2.lo, (decSubdiv s prob).2.hi⟩
      (by simp only [enc_mk_lo, enc_mk_hi]; omega) (by simp only [enc_mk_hi]; omega)
    rw [hLH] at hpres2
    simp only [enc_mk_lo, enc_mk_hi] at hpres2
    exact ⟨hpres.1, hpres2.2, hpres.2.1, hpres.2.2⟩

/-- The only failure a `decode` call can produce is running out of data. -/
theorem decode_err (bytes : List ℕ) (s : BinArithDecoder) (p : ℕ) (e : CoderErr)
    (h : s.decode bytes p = .error e) : e = .outOfData := by
  rw [decode_eq] at h
  cases hre : renormD 4 bytes (decSubdiv s p).2 with
  | error e2 =>
    rw [hre] at h
    simp only [Except.map] at h
    have he2 := renormD_err 4 bytes (decSubdiv s p).2 e2 hre
    cases h
    exact he2
  | ok s2 => rw [hre] at h; simp [Except.map] at h

theorem decode_total (bytes : List ℕ) (s : BinArithDecoder) (p : ℕ) :
    s.decode bytes p = .error .outOfData ∨ ∃ r, s.decode bytes p = .ok r := by
  cases hd : s.decode bytes p with
  | error e =>
    left
    rw [decode_err bytes s p e hd]
  | ok r =>
    right
    exact ⟨r, rfl⟩

/-- A decoder renormalization that succeeds with 4 fuel has really run the
source loop to completion: the loop condition fails at the result. -/
theorem renormD_done (bytes : List ℕ) (s s' : BinArithDecoder)
    (h3 : s.lo < 4294967296) (h4 : s.hi < 4294967296)
    (hok : renormD 4 bytes s = .ok s') : ¬ s'.lo ^^^ s'.hi < 1 <<< 24 := by
  have hLH := renormD_loHi 4 bytes s s' hok
  have hdone := renormE_four_done ⟨s.lo, s.hi⟩ h3 h4
  rw [hLH] at hdone
  simp only [enc_mk_lo, enc_mk_hi] at hdone
  exact hdone

theorem renormD_fuel_of_done : ∀ (k f : ℕ) (bytes : List ℕ) (s : BinArithDecoder),
    (∀ s', renormD k bytes s = .ok s' → ¬ s'.lo ^^^ s'.hi < 1 <<< 24) →
    k ≤ f → renormD f bytes s = renormD k bytes s := by
  intro k
  induction k with
  | zero =>
    intro f bytes s hdone _
    exact renormD_stop bytes s (hdone s rfl) f
  | succ k ih =>
    intro f bytes s hdone hle
    by_cases hc : s.lo ^^^ s.hi < 1 <<< 24
    · cases f with
      | zero => omega
      | succ f =>
        cases hread : bytes[s.read_pos]? with
        | none =>
          rw [renormD_none bytes s hc hread f, renormD_none bytes s hc hread k]
        | some b =>
          rw [renormD_cons bytes s b hc hread f, renormD_cons bytes s b hc hread k]
          refine ih f bytes _ ?_ (by omega)
          intro s' hs'
          refine hdone s' ?_
          rw [renormD_cons bytes s b hc hread k]
          exact hs'
    · rw [renormD_stop bytes s hc f, renormD_stop bytes s hc (k+1)]

/-- 4 units of fuel are always enough for the decoder renormalization: any
larger bound gives the same outcome. -/
theorem renormD_fuel (f : ℕ) (bytes : List ℕ) (s : BinArithDecoder) (h : 4 ≤ f)
    (h3 : s.lo < 4294967296) (h4 : s.hi < 4294967296) :
    renormD f bytes s = renormD 4 bytes s :=
  renormD_fuel_of_done 4 f bytes s (fun s' hs' => renormD_done bytes s s' h3 h4 hs') h

/-- Iterating the adaptive update over any bit sequence keeps the probability
strictly inside `(0, kProbMax)`. -/
theorem adapt_foldl_range : ∀ (bits : List Bool) (I : ℕ) (m : BinShiftModel), 1 ≤ I →
    0 < m.prob → m.prob < kProbMax →
    0 < (bits.foldl (BinShiftModel.adapt I) m).prob ∧
      (bits.foldl (BinShiftModel.adapt I) m).prob < kProbMax := by
  intro bits
  induction bits with
  | nil => intro I m _ h1 h2; exact ⟨h1, h2⟩
  | cons b bs ih =>
    intro I m hI h1 h2
    have hr := adapt_range I m b hI h1 h2
    simp only [List.foldl_cons]
    exact ih I (m.adapt I b) hI hr.1 hr.2

/-! The remaining claims: one theorem per claim, with witnesses. -/

theorem static_roundtrip_witness :
    (0 : ℕ) < 1000 ∧ 1000 < kProbMax ∧
      decodeStream (encodeStream ([true, false, true].map fun b => (b, 1000)))
        ([true, false, true].map fun _ => 1000) = .ok [true, false, true] :=
  ⟨by decide, by decide, static_roundtrip [true, false, true] 1000 (by decide) (by decide)⟩

theorem tree_roundtrip_witness :
    (1 : ℕ) ≤ 4 ∧ (1 : ℕ) ≤ 2 ∧ (2 : ℕ) ≤ 16 ∧
      (∀ v ∈ ([2, 0, 3] : List ℕ), v < 1 <<< 2) ∧
      ∃ out, treeEncodeStream 4 2 [2, 0, 3] = .ok out ∧
        treeDecodeStream 4 2 out ([2, 0, 3] : List ℕ).length = .ok [2, 0, 3] :=
  ⟨by decide, by decide, by decide, by decide,
    tree_roundtrip 4 2 [2, 0, 3] (by decide) (by decide) (by decide) (by decide)⟩

/-- C3: for every encoder or decoder state reachable from the initial state
(`lo = 0`, `hi = 2^32 - 1`) by encode/decode steps whose probability argument
is strictly inside `(0, kProbMax)`, `lo ≤ hi` holds between calls, after the
subdivision step (in particular the `bit = 0` branch `lo = x + 1` never sets
`lo` above `hi`), and after every renormalization iteration. -/
theorem interval_invariant :
    (∀ s, EncReach s → s.lo ≤ s.hi) ∧
    (∀ s bit p, EncReach s → 0 < p → p < kProbMax →
      (s.lo ≤ (encSubdiv s bit p).lo ∧ (encSubdiv s bit p).lo ≤ (encSubdiv s bit p).hi ∧
        (encSubdiv s bit p).hi ≤ s.hi) ∧
      ∀ f, (renormE f (encSubdiv s bit p)).1.lo ≤ (renormE f (encSubdiv s bit p)).1.hi) ∧
    (∀ bytes s, DecReachP bytes s → s.lo ≤ s.hi) ∧
    (∀ bytes s p, DecReachP bytes s → 0 < p → p < kProbMax →
      (decSubdiv s p).2.lo ≤ (decSubdiv s p).2.hi ∧
      ∀ f s2, renormD f bytes (decSubdiv s p).2 = .ok s2 → s2.lo ≤ s2.hi) := by
  refine ⟨?_, ?_, ?_, ?_⟩
  · intro s h
    exact (EncReach_InvE s h).1
  · intro s bit p h hp0 hpk
    have hI := EncReach_InvE s h
    have hstr := InvE_strict s hI
    have hpk4 : p < 4096 := by rw [kProbMax_eq] at hpk; exact hpk
    have hsub := encSubdiv_bounds s bit p hstr hI.2.1 hpk4
    refine ⟨⟨hsub.1, hsub.2.1, hsub.2.2.1⟩, ?_⟩
    intro f
    exact (renormE_pres f (encSubdiv s bit p) hsub.2.1 hsub.2.2.2).1
  · intro bytes s h
    exact le_of_lt (DecReachP_inv bytes s h).1
  · intro bytes s p h hp0 hpk
    have hinv := DecReachP_inv bytes s h
    have hpk4 : p < 4096 := by rw [kProbMax_eq] at hpk; exact hpk
    have hsub := decSubdiv_interval s p hinv.1 hinv.2.1 hpk4
    refine ⟨hsub.2.1, ?_⟩
    intro f s2 hok
    have hLH := renormD_loHi f bytes (decSubdiv s p).2 s2 hok
    have hpres := renormE_pres f ⟨(decSubdiv s p).2.lo, (decSubdiv s p).2.hi⟩
      (by simp only [enc_mk_lo, enc_mk_hi]; omega) (by simp only [enc_mk_hi]; omega)
    rw [hLH] at hpres
    simp only [enc_mk_lo, enc_mk_hi] at hpres
    exact hpres.1

theorem interval_invariant_witness :
    EncReach encInit ∧ (0 : ℕ) < 2048 ∧ 2048 < kProbMax ∧
      encInit.lo ≤ (encSubdiv encInit true 2048).lo ∧
      (encSubdiv encInit true 2048).lo ≤ (encSubdiv encInit true 2048).hi :=
  have hr : EncReach encInit := EncReach.init
  have h := interval_invariant.2.1 encInit true 2048 hr (by decide) (by decide)
  ⟨hr, by decide, by decide, h.1.1, h.1.2.1⟩

/-- C4: in this embedding every source read is modelled as a fallible lookup,
following the specification's error model (the C++ itself indexes
`bytes[read_pos++]` unchecked, so it has no error path at all): construction
over fewer than 4 bytes fails with the out-of-data error, a renormalization
step whose read is past the end fails with the out-of-data error, and
out-of-data is the only failure a decode call can produce. -/
theorem truncated_decode_fails :
    decInit [0, 0, 0] = .error .outOfData ∧
    (∀ (bytes : List ℕ), bytes.length < 4 → decInit bytes = .error .outOfData) ∧
    (∀ (bytes : List ℕ) (s : BinArithDecoder) (f : ℕ),
      s.lo ^^^ s.hi < 1 <<< 24 → bytes.length ≤ s.read_pos →
      renormD (f + 1) bytes s = .error .outOfData) ∧
    (∀ (bytes : List ℕ) (s : BinArithDecoder) (p : ℕ) (e : CoderErr),
      s.decode bytes p = .error e → e = .outOfData) := by
  refine ⟨rfl, decInit_short, ?_, decode_err⟩
  intro bytes s f hc hlen
  exact renormD_none bytes s hc (List.getElem?_eq_none hlen) f

theorem truncated_decode_fails_witness :
    ([0, 0] : List ℕ).length < 4 ∧ decInit [0, 0] = .error .outOfData :=
  ⟨by decide, truncated_decode_fails.2.1 [0, 0] (by decide)⟩

/-- C5: `BitTreeModel::encode` checks `value < 2^NumBits` up front: an
out-of-range value fails with the out-of-range error before any bit is coded
(the failing call returns no updated models, no encoder state, and no bytes),
while an in-range value proceeds to the coding loop. -/
theorem tree_encode_range_check :
    (∀ I N models enc v, 1 <<< N ≤ v →
      BitTreeModel.encode I N models enc v = .error .outOfRange) ∧
    (∀ I N models enc v, v < 1 <<< N →
      BitTreeModel.encode I N models enc v =
        .ok (treeEncLoop I N N 1 v models enc)) := by
  constructor
  · intro I N models enc v h
    unfold BitTreeModel.encode
    rw [if_neg (by omega)]
  · intro I N models enc v h
    unfold BitTreeModel.encode
    rw [if_pos h]

theorem tree_encode_range_check_witness :
    1 <<< 8 ≤ 256 ∧
      BitTreeModel.encode 5 8 (initModels 8) encInit 256 = .error .outOfRange :=
  ⟨by decide, tree_encode_range_check.1 5 8 (initModels 8) encInit 256 (by decide)⟩

/-- C6: for every `Inertia ≥ 1` and every starting probability strictly
inside `(0, kProbMax)`, applying the adaptive update rule any number of
times, with any sequence of bits, yields a probability that remains strictly
inside `(0, kProbMax)`: it never reaches 0 and never reaches `kProbMax`. -/
theorem adapt_stays_inside (I p0 : ℕ) (bits : List Bool) (hI : 1 ≤ I)
    (h0 : 0 < p0) (h1 : p0 < kProbMax) :
    0 < (bits.foldl (BinShiftModel.adapt I) ⟨p0⟩).prob ∧
      (bits.foldl (BinShiftModel.adapt I) ⟨p0⟩).prob < kProbMax :=
  adapt_foldl_range bits I ⟨p0⟩ hI h0 h1

theorem adapt_stays_inside_witness :
    (1 : ℕ) ≤ 4 ∧ (0 : ℕ) < 2048 ∧ 2048 < kProbMax ∧
      0 < ([true, true, false].foldl (BinShiftModel.adapt 4) ⟨2048⟩).prob ∧
      ([true, true, false].foldl (BinShiftModel.adapt 4) ⟨2048⟩).prob < kProbMax :=
  have h := adapt_stays_inside 4 2048 [true, true, false] (by decide) (by decide) (by decide)
  ⟨by decide, by decide, by decide, h.1, h.2⟩

/-- C7: an adaptive-model call invokes the arithmetic coder exactly once,
with the model's probability as it was before the call, and only afterwards
updates the probability from the observed bit: the model encode is literally
the coder encode at the pre-call probability paired with the adapted model,
and the model decode returns the coder's bit with the model adapted on it. -/
theorem model_uses_prior_prob :
    (∀ (I : ℕ) (m : BinShiftModel) (enc : BinArithEncoder) (bit : Bool),
      BinShiftModel.encode I m enc bit =
        (m.adapt I bit, (enc.encode bit m.prob).1, (enc.encode bit m.prob).2)) ∧
    (∀ (I : ℕ) (m : BinShiftModel) (bytes : List ℕ) (dec : BinArithDecoder)
      (bit : Bool) (dec' : BinArithDecoder), dec.decode bytes m.prob = .ok (bit, dec') →
      BinShiftModel.decode I m bytes dec = .ok (bit, m.adapt I bit, dec')) ∧
    (∀ (I : ℕ) (m : BinShiftModel) (bytes : List ℕ) (dec : BinArithDecoder)
      (e : CoderErr), dec.decode bytes m.prob = .error e →
      BinShiftModel.decode I m bytes dec = .error e) := by
  refine ⟨fun I m enc bit => rfl, ?_, ?_⟩
  · intro I m bytes dec bit dec' h
    unfold BinShiftModel.decode
    rw [h]
  · intro I m bytes dec e h
    unfold BinShiftModel.decode
    rw [h]

theorem model_uses_prior_prob_witness :
    BinArithDecoder.decode ⟨0, 0, 4294967295, 4⟩ [0, 0, 0, 0]
        (BinShiftModel.mk 2048).prob = .ok (true, ⟨0, 0, 2147483647, 4⟩) ∧
      BinShiftModel.decode 4 ⟨2048⟩ [0, 0, 0, 0] ⟨0, 0, 4294967295, 4⟩ =
        .ok (true, BinShiftModel.adapt 4 ⟨2048⟩ true, ⟨0, 0, 2147483647, 4⟩) :=
  have h : BinArithDecoder.decode ⟨0, 0, 4294967295, 4⟩ [0, 0, 0, 0]
      (BinShiftModel.mk 2048).prob = .ok (true, ⟨0, 0, 2147483647, 4⟩) := rfl
  ⟨h, model_uses_prior_prob.2.1 4 ⟨2048⟩ [0, 0, 0, 0] ⟨0, 0, 4294967295, 4⟩ true
    ⟨0, 0, 2147483647, 4⟩ h⟩

/-- C8: finalization appends exactly 4 bytes, the big-endian representation
of the final `lo` (most significant byte first); a session with zero encode
calls produces exactly the 4 bytes `[0, 0, 0, 0]`, and decoding zero symbols
from them succeeds. -/
theorem flush_four_bytes :
    (∀ lo, (flush lo).length = 4) ∧
    (∀ lo, lo < 4294967296 →
      flush lo = [lo / 16777216, lo / 65536 % 256, lo / 256 % 256, lo % 256] ∧
        val4 (flush lo) = lo) ∧
    encodeStream [] = [0, 0, 0, 0] ∧
    decodeStream (encodeStream []) [] = .ok [] := by
  exact ⟨flush_length, fun lo h => ⟨flush_eq lo h, val4_flush lo h⟩, rfl, rfl⟩

theorem flush_four_bytes_witness :
    (16909060 : ℕ) < 4294967296 ∧
      flush 16909060 = [16909060 / 16777216, 16909060 / 65536 % 256,
        16909060 / 256 % 256, 16909060 % 256] ∧
      val4 (flush 16909060) = 16909060 :=
  ⟨by decide, flush_four_bytes.2.1 16909060 (by decide)⟩

/-- C9: for every decoder state reachable from construction (which assembles
`code` big-endian from the first 4 input bytes over `lo = 0`,
`hi = 2^32 - 1`) by decode calls with arbitrary probability arguments over a
well-formed byte source, `lo ≤ code ≤ hi` holds after construction, after
every subdivision step, and after every renormalization iteration. -/
theorem code_in_interval :
    (∀ bytes s, bytesWF bytes → decInit bytes = .ok s →
      s.lo ≤ s.code ∧ s.code ≤ s.hi) ∧
    (∀ bytes s, bytesWF bytes → DecReach bytes s → s.lo ≤ s.code ∧ s.code ≤ s.hi) ∧
    (∀ bytes s p, bytesWF bytes → DecReach bytes s →
      (decSubdiv s p).2.lo ≤ (decSubdiv s p).2.code ∧
        (decSubdiv s p).2.code ≤ (decSubdiv s p).2.hi) ∧
    (∀ bytes s p f s2, bytesWF bytes → DecReach bytes s →
      renormD f bytes (decSubdiv s p).2 = .ok s2 →
      s2.lo ≤ s2.code ∧ s2.code ≤ s2.hi) := by
  have hbase : ∀ bytes s, bytesWF bytes → DecReach bytes s →
      s.lo ≤ s.code ∧ s.code ≤ s.hi := fun bytes s hwf h =>
    ⟨(DecReach_code_inv bytes s hwf h).2.2.1, (DecReach_code_inv bytes s hwf h).2.2.2⟩
  refine ⟨?_, hbase, ?_, ?_⟩
  · intro bytes s hwf hs
    exact hbase bytes s hwf (DecReach.init s hs)
  · intro bytes s p hwf h
    have hinv := DecReach_code_inv bytes s hwf h
    have hsub := decSubdiv_code s p hinv.1 hinv.2.1 hinv.2.2.1 hinv.2.2.2
    exact ⟨hsub.2.2.1, hsub.2.2.2⟩
  · intro bytes s p f s2 hwf h hok
    have hinv := DecReach_code_inv bytes s hwf h
    have hsub := decSubdiv_code s p hinv.1 hinv.2.1 hinv.2.2.1 hinv.2.2.2
    have hpres := renormD_code_pres f bytes (decSubdiv s p).2 s2 hok hwf
      (by rw [hsub.1]; exact hinv.1) hsub.2.1 hsub.2.2.1 hsub.2.2.2
    exact ⟨hpres.2.1, hpres.2.2⟩

theorem code_in_interval_witness :
    bytesWF [1, 2, 3, 4] ∧
      decInit [1, 2, 3, 4] = .ok ⟨16909060, 0, 4294967295, 4⟩ ∧
      (⟨16909060, 0, 4294967295, 4⟩ : BinArithDecoder).lo ≤ 16909060 ∧
      (16909060 : ℕ) ≤ (⟨16909060, 0, 4294967295, 4⟩ : BinArithDecoder).hi :=
  have hwf : bytesWF [1, 2, 3, 4] := by
    show ∀ b ∈ ([1, 2, 3, 4] : List ℕ), b < 256
    decide
  have hd : decInit [1, 2, 3, 4] = .ok ⟨16909060, 0, 4294967295, 4⟩ := rfl
  ⟨hwf, hd, code_in_interval.1 [1, 2, 3, 4] ⟨16909060, 0, 4294967295, 4⟩ hwf hd⟩

/-- C10: from any `uint32_t` interval, both renormalization loops reach their
exit condition within 4 iterations: running the encoder's (resp. decoder's)
loop with any fuel bound of at least 4 gives the same result as with exactly
4, the loop guard `(lo ^ hi) < 2^24` is false at the result, and a single
encode call appends at most 4 bytes while a single decode call advances the
read cursor by at most 4 bytes. -/
theorem renorm_at_most_four :
    (∀ f s, 4 ≤ f → s.lo < 4294967296 → s.hi < 4294967296 →
      renormE f s = renormE 4 s) ∧
    (∀ s, s.lo < 4294967296 → s.hi < 4294967296 →
      ¬ (renormE 4 s).1.lo ^^^ (renormE 4 s).1.hi < 1 <<< 24) ∧
    (∀ (s : BinArithEncoder) (bit : Bool) (p : ℕ), (s.encode bit p).2.length ≤ 4) ∧
    (∀ (f : ℕ) (bytes : List ℕ) (s : BinArithDecoder),
      4 ≤ f → s.lo < 4294967296 → s.hi < 4294967296 →
      renormD f bytes s = renormD 4 bytes s) ∧
    (∀ (bytes : List ℕ) (s s' : BinArithDecoder),
      s.lo < 4294967296 → s.hi < 4294967296 →
      renormD 4 bytes s = .ok s' → ¬ s'.lo ^^^ s'.hi < 1 <<< 24) ∧
    (∀ (bytes : List ℕ) (s : BinArithDecoder) (p : ℕ) (b : Bool)
      (s' : BinArithDecoder), s.decode bytes p = .ok (b, s') →
      s'.read_pos ≤ s.read_pos + 4) := by
  refine ⟨fun f s h h3 h4 => renormE_fuel f s h h3 h4,
    fun s h3 h4 => renormE_four_done s h3 h4, ?_,
    fun f bytes s h h3 h4 => renormD_fuel f bytes s h h3 h4,
    fun bytes s s' h3 h4 hok => renormD_done bytes s s' h3 h4 hok, ?_⟩
  · intro s bit p
    exact renormE_out_length 4 (encSubdiv s bit p)
  · intro bytes s p b s' hok
    obtain ⟨hre, -⟩ := decode_ok_elim bytes s p b s' hok
    have hp := renormD_pos 4 bytes (decSubdiv s p).2 s' hre
    have hrp : (decSubdiv s p).2.read_pos = s.read_pos := by
      by_cases hc : s.code ≤ mid s.lo s.hi p
      · rw [decSubdiv_pos s p hc]
      · rw [decSubdiv_neg s p hc]
    omega

theorem renorm_at_most_four_witness :
    (4 : ℕ) ≤ 7 ∧ encInit.lo < 4294967296 ∧ encInit.hi < 4294967296 ∧
      renormE 7 encInit = renormE 4 encInit :=
  ⟨by decide, by decide, by decide,
    renorm_at_most_four.1 7 encInit (by decide) (by decide) (by decide)⟩

end MiniArith
